import Mathlib

/-!
# Verification of the de-ai-agent commit-message sanitizer

Shallow embedding of `src/de_ai_agent/hook.py` over `List Char`.
The Python code works with `re` patterns; each pattern here is embedded as an
explicit matcher together with a left-to-right scanner that mirrors
`re.findall` / `re.sub(..., "")` semantics (leftmost match, continue after the
match, no empty matches possible since every pattern begins with a mandatory
literal).
-/

namespace DeAiAgent

/-- ASCII lowercase mapping, the case folding relevant to the fixed ASCII
token vocabulary used by all patterns (`re.IGNORECASE`). -/
def lowerChar (c : Char) : Char := c.toLower

def lowerStr (s : List Char) : List Char := s.map lowerChar

/-- Case-insensitive: `pat` (already arbitrary case) is a prefix of `s`. -/
def isPrefixCI : List Char → List Char → Bool
  | [], _ => true
  | _ :: _, [] => false
  | p :: ps, c :: cs => (lowerChar c == lowerChar p) && isPrefixCI ps cs

/-- Case-insensitive: `pat` occurs somewhere in `s`. -/
def occursCI (pat : List Char) : List Char → Bool
  | [] => isPrefixCI pat []
  | c :: cs => isPrefixCI pat (c :: cs) || occursCI pat cs

/-- Case-sensitive: `pat` is a prefix of `s`. -/
def isPrefixAt : List Char → List Char → Bool
  | [], _ => true
  | _ :: _, [] => false
  | p :: ps, c :: cs => (c == p) && isPrefixAt ps cs

/-- Case-sensitive: `pat` occurs somewhere in `s`. -/
def containsSeq (pat : List Char) : List Char → Bool
  | [] => isPrefixAt pat []
  | c :: cs => isPrefixAt pat (c :: cs) || containsSeq pat cs

/-- Whitespace for Python `str.rstrip()` and `re` `\s` (Unicode mode):
the ASCII whitespace controls plus the Unicode whitespace code points. -/
def isPySpace (c : Char) : Bool :=
  c == ' ' || c == '\t' || c == '\n' || c == '\r' || c == '\x0b' || c == '\x0c' ||
  c == '\x1c' || c == '\x1d' || c == '\x1e' || c == '\x1f' ||
  c == '\x85' || c == '\xa0' || c == '\u1680' ||
  ('\u2000' <= c && c <= '\u200a') ||
  c == '\u2028' || c == '\u2029' || c == '\u202f' || c == '\u205f' || c == '\u3000'

/-- Python `str.rstrip()`: remove the maximal whitespace suffix. -/
def rstripPy (s : List Char) : List Char :=
  (s.reverse.dropWhile isPySpace).reverse

/-- The shared postprocessing `cleaned.rstrip() + "\n" if cleaned.rstrip() else ""`
at the end of both removal functions. -/
def finalizeMsg (s : List Char) : List Char :=
  if rstripPy s = [] then [] else rstripPy s ++ ['\n']

/-- Text up to (excluding) the next newline: what `.*` can consume without
`re.DOTALL`. -/
def takeLine (s : List Char) : List Char := s.takeWhile (fun c => c ≠ '\n')

def dropLine (s : List Char) : List Char := s.dropWhile (fun c => c ≠ '\n')

/-- Split on newline characters; a text with `k` newlines yields `k+1` lines. -/
def splitLines : List Char → List (List Char)
  | [] => [[]]
  | c :: r =>
    if c = '\n' then [] :: splitLines r
    else
      match splitLines r with
      | [] => [[c]]
      | l :: ls => (c :: l) :: ls

/-- Join lines with newline separators (inverse of `splitLines`). -/
def joinLines : List (List Char) → List Char
  | [] => []
  | [l] => l
  | l :: ls => l ++ '\n' :: joinLines ls

/-- `re.sub(r"\n{3,}", "\n\n", s)`: each maximal run of `k ≥ 3` newlines is
replaced by exactly two, shorter runs are kept; equivalently every maximal
newline run of length `k` becomes `min k 2` newlines. -/
def collapseGo : Nat → List Char → List Char
  | n, [] => List.replicate (min n 2) '\n'
  | n, c :: r =>
    if c = '\n' then collapseGo (n + 1) r
    else List.replicate (min n 2) '\n' ++ c :: collapseGo 0 r

def collapseNl (s : List Char) : List Char := collapseGo 0 s

/-- The maximal runs of non-newline characters of a text, in order: the
nonempty lines, with their exact contents. -/
def nonNlRuns (s : List Char) : List (List Char) :=
  (splitLines s).filter (fun l => l ≠ [])

/-! ## The fixed token vocabularies of `hook.py` -/

def coKey : List Char := "co-authored-by:".data

def coTokens : List (List Char) :=
  ["claude", "gpt", "copilot", "aider", "gemini", "cline", "cody", "windsurf"].map String.data

def brandTokens : List (List Char) :=
  ["claude", "ai", "copilot", "cline", "cursor", "aider"].map String.data

def linkLabels : List (List Char) :=
  ["claude code", "claude", "copilot", "ai", "cline", "cursor", "aider"].map String.data

def emojiMarkers : List Char := ['🤖', '✨', '🚀']

def genWithLit : List Char := "generated with".data

def occursAnyCI (pats : List (List Char)) (s : List Char) : Bool :=
  pats.any (fun p => occursCI p s)

/-- A `plain_generated_pattern` match somewhere inside a single line: some
suffix of the line starts with `Generated with` (case-insensitively) and
contains a branding token after it. -/
def hasPlainSpan (l : List Char) : Bool :=
  l.tails.any (fun t => isPrefixCI genWithLit t && occursAnyCI brandTokens (t.drop genWithLit.length))

/-- Order-preserving matching of the lines of a scanned text into the lines
of the original: each surviving line is a prefix of an original line, and
original lines may be skipped (they were consumed by multi-line matches). -/
inductive LinesRel : List (List Char) → List (List Char) → Prop
  | nil : LinesRel [] []
  | cons {a b : List Char} {L T : List (List Char)} :
      a <+: b → LinesRel L T → LinesRel (a :: L) (b :: T)
  | skip {b : List Char} {L T : List (List Char)} :
      LinesRel L T → LinesRel L (b :: T)

/-! ## Co-author pass

`ai_coauthor_pattern = ^Co-Authored-By:.*(?:...tokens...).*$` with
`re.MULTILINE | re.IGNORECASE` and no `re.DOTALL`: `^`/`$` anchor to line
boundaries and `.` cannot cross `\n`, so the pattern matches exactly the
full content (newline excluded) of every line that starts with the trailer
key and contains a token after it; `findall`/`sub` therefore act linewise. -/

def coauthorLineMatches (l : List Char) : Bool :=
  isPrefixCI coKey l && occursAnyCI coTokens (l.drop coKey.length)

/-- `remove_coauthor` from `hook.py`: delete matching line contents (the `$`
anchor leaves each line terminator in place), record them in order, collapse
newline runs, trim and re-terminate. -/
def remove_coauthor (text : List Char) : List Char × List (List Char) :=
  let ls := splitLines text
  let removed := ls.filter coauthorLineMatches
  let cleaned := joinLines (ls.map fun l => if coauthorLineMatches l then [] else l)
  (finalizeMsg (collapseNl cleaned), removed)

/-! ## Generic scanner

`re.sub(pat, "", s)` / `re.findall(pat, s)` for a pattern that can never match
the empty string: scan positions left to right, at each position either no
match (keep the character, move on) or a match of length `k > 0` (record the
matched span, delete it, continue after it).  A fuel parameter makes the
function structurally recursive; `scanSub` instantiates the fuel with the
text length, which suffices whenever the matcher only returns positive
lengths. -/

def scanAux (f : List Char → Option Nat) : Nat → List Char → List Char × List (List Char)
  | _, [] => ([], [])
  | 0, s => (s, [])
  | fuel + 1, c :: r =>
    match f (c :: r) with
    | some k =>
      let p := scanAux f fuel ((c :: r).drop k)
      (p.1, (c :: r).take k :: p.2)
    | none =>
      let p := scanAux f fuel r
      (c :: p.1, p.2)

def scanSub (f : List Char → Option Nat) (s : List Char) : List Char × List (List Char) :=
  scanAux f s.length s

/-! ## Branding pass matchers

Each matcher reports the length of the regex match starting at the head of
the given suffix, or `none`. -/

/-- `emoji_generated_pattern = (?:🤖|✨|🚀)\s*Generated with.*(?:tokens).*` with
`re.IGNORECASE`: an emoji marker, then greedy `\s*` (which may cross newlines);
since no whitespace character can begin the literal `Generated with`, the
literal can only match at the end of the maximal whitespace run; then `.*`
(confined to one line) must provide a token, and the final greedy `.*` extends
the match to the end of that line. -/
def emojiMatchLen : List Char → Option Nat
  | [] => none
  | c :: r =>
    if emojiMarkers.contains c then
      let w := r.takeWhile isPySpace
      let rest := r.drop w.length
      if isPrefixCI genWithLit rest then
        let rest2 := rest.drop (genWithLit.length)
        let lr := takeLine rest2
        if occursAnyCI brandTokens lr then
          some (1 + w.length + genWithLit.length + lr.length)
        else none
      else none
    else none

/-- `plain_generated_pattern = Generated with.*(?:tokens).*` with
`re.IGNORECASE`: the literal, then a token later on the same line; the
greedy final `.*` extends the match to the end of the line. -/
def plainMatchLen (s : List Char) : Option Nat :=
  if isPrefixCI genWithLit s then
    let rest := s.drop (genWithLit.length)
    let lr := takeLine rest
    if occursAnyCI brandTokens lr then
      some (genWithLit.length + lr.length)
    else none
  else none

/-- One alternative of the link pattern: label `L`, then `](`, then `[^)]*`
(greedy, crosses newlines, stops at the first `)`), then `)`. -/
def labelRest (L : List Char) (r : List Char) : Option Nat :=
  if isPrefixCI L r then
    match r.drop L.length with
    | b1 :: b2 :: rest3 =>
      if b1 = ']' ∧ b2 = '(' then
        let u := rest3.takeWhile (fun c => c ≠ ')')
        match rest3.drop u.length with
        | d :: _ => if d = ')' then some (1 + L.length + 2 + u.length + 1) else none
        | [] => none
      else none
    | _ => none
  else none

def tryLabels : List (List Char) → List Char → Option Nat
  | [], _ => none
  | L :: Ls, r =>
    match labelRest L r with
    | some n => some n
    | none => tryLabels Ls r

/-- `markdown_link_pattern = \[(?:labels)\]\([^)]*\)` with `re.IGNORECASE`:
the regex alternation tries each label in order and backtracks to the next
alternative when the remainder (`](...)`) fails. -/
def linkMatchLen : List Char → Option Nat
  | [] => none
  | c :: r => if c = '[' then tryLabels linkLabels r else none

/-- `remove_branding` from `hook.py`: the three patterns are applied in
sequence (emoji, plain, markdown link), each `findall`+`sub` on the output of
the previous, then newline runs are collapsed and the text is trimmed and
re-terminated; the removal record concatenates the three passes in order. -/
def remove_branding (text : List Char) : List Char × List (List Char) :=
  let p1 := scanSub emojiMatchLen text
  let p2 := scanSub plainMatchLen p1.1
  let p3 := scanSub linkMatchLen p2.1
  (finalizeMsg (collapseNl p3.1), p1.2 ++ p2.2 ++ p3.2)

/-- The removal record: `{"coauthor": [...], "branding": [...]}`. -/
structure Removed where
  coauthor : List (List Char)
  branding : List (List Char)
deriving DecidableEq, Repr

/-- `sanitize_commit_message(text, keep_coauthor=..., keep_branding=...)`. -/
def sanitize_commit_message (text : List Char)
    (keep_coauthor : Bool) (keep_branding : Bool) :
    List Char × Removed :=
  let s1 := if keep_coauthor then (text, []) else remove_coauthor text
  let s2 := if keep_branding then (s1.1, []) else remove_branding s1.1
  (s2.1, ⟨s1.2, s2.2⟩)

end DeAiAgent

namespace DeAiAgent

/-! ## Basic lemmas: case-insensitive matching -/

theorem lowerChar_nl : lowerChar '\n' = '\n' := rfl

theorem eq_nl_of_lower {c : Char} (h : c = '\n') : lowerChar c = '\n' := by
  subst h; rfl

theorem isPrefixCI_append {p t e : List Char} (h : isPrefixCI p t = true) :
    isPrefixCI p (t ++ e) = true := by
  induction p generalizing t with
  | nil => rfl
  | cons a ps ih =>
    cases t with
    | nil => exact absurd h (by simp [isPrefixCI])
    | cons c cs =>
      simp only [isPrefixCI, Bool.and_eq_true] at h ⊢
      exact ⟨h.1, ih h.2⟩

theorem isPrefixCI_of_prefix {p t t' : List Char} (htt : t <+: t')
    (h : isPrefixCI p t = true) : isPrefixCI p t' = true := by
  obtain ⟨e, rfl⟩ := htt
  exact isPrefixCI_append h

theorem isPrefixCI_takeLine {p t : List Char}
    (hnl : ∀ a ∈ p, lowerChar a ≠ '\n') (h : isPrefixCI p t = true) :
    isPrefixCI p (takeLine t) = true := by
  induction p generalizing t with
  | nil => rfl
  | cons a ps ih =>
    cases t with
    | nil => exact absurd h (by simp [isPrefixCI])
    | cons c cs =>
      simp only [isPrefixCI, Bool.and_eq_true, beq_iff_eq] at h
      have hc : c ≠ '\n' := by
        intro hcn
        exact hnl a (by simp) (h.1 ▸ eq_nl_of_lower hcn)
      simp only [takeLine, List.takeWhile_cons, hc, if_true, decide_eq_true_eq,
        ne_eq, not_false_eq_true, reduceIte]
      simp only [isPrefixCI, Bool.and_eq_true, beq_iff_eq]
      refine ⟨h.1, ?_⟩
      have := ih (fun b hb => hnl b (by simp [hb])) h.2
      simpa [takeLine] using this

theorem takeLine_drop_comm {p t : List Char}
    (hnl : ∀ a ∈ p, lowerChar a ≠ '\n') (h : isPrefixCI p t = true) :
    (takeLine t).drop p.length = takeLine (t.drop p.length) := by
  induction p generalizing t with
  | nil => simp
  | cons a ps ih =>
    cases t with
    | nil => exact absurd h (by simp [isPrefixCI])
    | cons c cs =>
      simp only [isPrefixCI, Bool.and_eq_true, beq_iff_eq] at h
      have hc : c ≠ '\n' := by
        intro hcn
        exact hnl a (by simp) (h.1 ▸ eq_nl_of_lower hcn)
      simp only [takeLine, List.takeWhile_cons, hc, decide_eq_true_eq, ne_eq,
        not_false_eq_true, reduceIte, List.length_cons, List.drop_succ_cons]
      exact ih (fun b hb => hnl b (by simp [hb])) h.2

theorem isPrefixCI_length {p t : List Char} (h : isPrefixCI p t = true) :
    p.length ≤ t.length := by
  induction p generalizing t with
  | nil => simp
  | cons a ps ih =>
    cases t with
    | nil => exact absurd h (by simp [isPrefixCI])
    | cons c cs =>
      simp only [isPrefixCI, Bool.and_eq_true] at h
      simpa using ih h.2

theorem occursCI_iff {p s : List Char} :
    occursCI p s = true ↔ ∃ t, t <:+ s ∧ isPrefixCI p t = true := by
  induction s with
  | nil =>
    simp only [occursCI]
    constructor
    · intro h; exact ⟨[], List.suffix_refl _, h⟩
    · rintro ⟨t, ht, hp⟩
      rwa [List.suffix_nil.mp ht] at hp
  | cons c cs ih =>
    simp only [occursCI, Bool.or_eq_true, ih]
    constructor
    · rintro (h | ⟨t, ht, hp⟩)
      · exact ⟨c :: cs, List.suffix_refl _, h⟩
      · exact ⟨t, ht.trans (List.suffix_cons c cs), hp⟩
    · rintro ⟨t, ht, hp⟩
      rcases List.suffix_cons_iff.mp ht with h | h
      · exact Or.inl (h ▸ hp)
      · exact Or.inr ⟨t, h, hp⟩

theorem occursCI_of_suffix {p s s' : List Char} (hss : s <:+ s')
    (h : occursCI p s = true) : occursCI p s' = true := by
  rw [occursCI_iff] at h ⊢
  obtain ⟨t, ht, hp⟩ := h
  exact ⟨t, ht.trans hss, hp⟩

theorem occursCI_of_isPrefixCI {p s : List Char} (h : isPrefixCI p s = true) :
    occursCI p s = true :=
  occursCI_iff.mpr ⟨s, List.suffix_refl _, h⟩

theorem occursCI_append_left {p t e : List Char} (h : occursCI p t = true) :
    occursCI p (t ++ e) = true := by
  rw [occursCI_iff] at h ⊢
  obtain ⟨u, hu, hp⟩ := h
  obtain ⟨x, rfl⟩ := hu
  exact ⟨u ++ e, ⟨x, by rw [List.append_assoc]⟩, isPrefixCI_append hp⟩

theorem occursCI_of_prefix {p t t' : List Char} (htt : t <+: t')
    (h : occursCI p t = true) : occursCI p t' = true := by
  obtain ⟨e, rfl⟩ := htt
  exact occursCI_append_left h

theorem occursAnyCI_of_prefix {pats : List (List Char)} {t t' : List Char}
    (htt : t <+: t') (h : occursAnyCI pats t = true) : occursAnyCI pats t' = true := by
  simp only [occursAnyCI, List.any_eq_true] at h ⊢
  obtain ⟨p, hp, hocc⟩ := h
  exact ⟨p, hp, occursCI_of_prefix htt hocc⟩

theorem occursAnyCI_of_suffix {pats : List (List Char)} {t t' : List Char}
    (htt : t <:+ t') (h : occursAnyCI pats t = true) : occursAnyCI pats t' = true := by
  simp only [occursAnyCI, List.any_eq_true] at h ⊢
  obtain ⟨p, hp, hocc⟩ := h
  exact ⟨p, hp, occursCI_of_suffix htt hocc⟩

/-! ## Basic lemmas: line structure -/

theorem takeLine_cons (c : Char) (r : List Char) :
    takeLine (c :: r) = if c = '\n' then [] else c :: takeLine r := by
  by_cases hc : c = '\n' <;> simp [takeLine, List.takeWhile_cons, hc]

theorem dropLine_cons (c : Char) (r : List Char) :
    dropLine (c :: r) = if c = '\n' then c :: r else dropLine r := by
  by_cases hc : c = '\n' <;> simp [dropLine, List.dropWhile_cons, hc]

theorem takeLine_append_nl (w y : List Char) :
    takeLine (w ++ '\n' :: y) = takeLine w := by
  induction w with
  | nil => simp [takeLine]
  | cons c cs ih =>
    by_cases hc : c = '\n'
    · simp [takeLine_cons, hc]
    · simp [takeLine_cons, hc, ih]

theorem splitLines_ne_nil (s : List Char) : splitLines s ≠ [] := by
  cases s with
  | nil => simp [splitLines]
  | cons c r =>
    by_cases hc : c = '\n'
    · simp [splitLines, hc]
    · simp only [splitLines, hc, if_false]
      cases h : splitLines r <;> simp

theorem splitLines_cons_of_ne (c : Char) (r : List Char) (hc : ¬ c = '\n') :
    splitLines (c :: r) = (c :: (splitLines r).headI) :: (splitLines r).tail := by
  simp only [splitLines, hc, if_false, reduceIte]
  cases h : splitLines r with
  | nil => exact absurd h (splitLines_ne_nil r)
  | cons x xs => simp

theorem headI_splitLines (s : List Char) : (splitLines s).headI = takeLine s := by
  induction s with
  | nil => simp [splitLines, takeLine]
  | cons c r ih =>
    by_cases hc : c = '\n'
    · simp [splitLines, takeLine_cons, hc]
    · rw [splitLines_cons_of_ne c r hc, takeLine_cons]
      simp [hc, ih]

theorem splitLines_no_nl {s : List Char} : ∀ l ∈ splitLines s, '\n' ∉ l := by
  induction s with
  | nil => simp [splitLines]
  | cons c r ih =>
    by_cases hc : c = '\n'
    · simp only [splitLines, hc, if_true, reduceIte]
      intro l hl
      rcases List.mem_cons.mp hl with rfl | hl'
      · simp
      · exact ih l hl'
    · rw [splitLines_cons_of_ne c r hc]
      intro l hl
      rcases List.mem_cons.mp hl with rfl | hl'
      · intro hmem
        rcases List.mem_cons.mp hmem with hceq | hmem'
        · exact hc hceq.symm
        · have : (splitLines r).headI ∈ splitLines r := by
            cases h : splitLines r with
            | nil => exact absurd h (splitLines_ne_nil r)
            | cons x xs => simp
          exact ih _ this hmem'
      · have : l ∈ splitLines r := by
          cases h : splitLines r with
          | nil => exact absurd h (splitLines_ne_nil r)
          | cons x xs =>
            rw [h] at hl'
            exact List.mem_cons_of_mem x hl'
        exact ih l this

theorem join_splitLines (s : List Char) : joinLines (splitLines s) = s := by
  induction s with
  | nil => simp [splitLines, joinLines]
  | cons c r ih =>
    by_cases hc : c = '\n'
    · subst hc
      simp only [splitLines, if_true, reduceIte]
      cases h : splitLines r with
      | nil => exact absurd h (splitLines_ne_nil r)
      | cons x xs =>
        rw [h] at ih
        simp [joinLines, ih]
    · rw [splitLines_cons_of_ne c r hc]
      cases h : splitLines r with
      | nil => exact absurd h (splitLines_ne_nil r)
      | cons x xs =>
        rw [h] at ih
        cases xs with
        | nil => simp_all [joinLines]
        | cons y ys => simp_all [joinLines]

theorem splitLines_append_nl (a b : List Char) :
    splitLines (a ++ '\n' :: b) = splitLines a ++ splitLines b := by
  induction a with
  | nil => simp [splitLines]
  | cons c cs ih =>
    by_cases hc : c = '\n'
    · simp [splitLines, hc, ih]
    · rw [List.cons_append, splitLines_cons_of_ne c _ hc, ih,
        splitLines_cons_of_ne c cs hc]
      cases h : splitLines cs with
      | nil => exact absurd h (splitLines_ne_nil cs)
      | cons x xs => simp

theorem splitLines_of_no_nl {l : List Char} (h : '\n' ∉ l) : splitLines l = [l] := by
  induction l with
  | nil => simp [splitLines]
  | cons c cs ih =>
    simp only [List.mem_cons, not_or] at h
    have hc : ¬ c = '\n' := fun hh => h.1 (by rw [hh])
    rw [splitLines_cons_of_ne c cs hc, ih h.2]
    simp

theorem splitLines_joinLines {L : List (List Char)} (hL : L ≠ [])
    (h : ∀ l ∈ L, '\n' ∉ l) : splitLines (joinLines L) = L := by
  induction L with
  | nil => exact absurd rfl hL
  | cons l ls ih =>
    cases ls with
    | nil => simp [joinLines, splitLines_of_no_nl (h l (by simp))]
    | cons m ms =>
      have : joinLines (l :: m :: ms) = l ++ '\n' :: joinLines (m :: ms) := rfl
      rw [this, splitLines_append_nl, splitLines_of_no_nl (h l (by simp)),
        ih (by simp) fun x hx => h x (by simp [hx])]
      rfl

end DeAiAgent

namespace DeAiAgent

/-- Appending text extends the last line of `a` and appends further lines:
`splitLines (a ++ b)` keeps all lines of `a` but the last, which becomes a
longer line. -/
theorem splitLines_append_struc (a b : List Char) :
    ∃ g, splitLines a = (splitLines a).dropLast ++ [g] ∧
      splitLines (a ++ b)
        = (splitLines a).dropLast ++ (g ++ (splitLines b).headI) :: (splitLines b).tail := by
  induction a with
  | nil =>
    refine ⟨[], by simp [splitLines], ?_⟩
    simp only [splitLines, List.dropLast_single, List.nil_append]
    cases h : splitLines b with
    | nil => exact absurd h (splitLines_ne_nil b)
    | cons x xs => simp
  | cons c cs ih =>
    obtain ⟨g, h1, h2⟩ := ih
    by_cases hc : c = '\n'
    · subst hc
      have e1 : splitLines ('\n' :: cs) = [] :: splitLines cs := by simp [splitLines]
      have e2 : splitLines ('\n' :: (cs ++ b)) = [] :: splitLines (cs ++ b) := by
        simp [splitLines]
      refine ⟨g, ?_, ?_⟩
      · rw [e1, List.dropLast_cons_of_ne_nil (splitLines_ne_nil cs), List.cons_append, ← h1]
      · rw [List.cons_append, e2, h2, e1,
          List.dropLast_cons_of_ne_nil (splitLines_ne_nil cs), List.cons_append]
    · rcases hD : (splitLines cs).dropLast with _ | ⟨d, ds⟩
      · rw [hD] at h1 h2
        simp only [List.nil_append] at h1 h2
        refine ⟨c :: g, ?_, ?_⟩
        · rw [splitLines_cons_of_ne c cs hc, h1]
          rfl
        · rw [List.cons_append, splitLines_cons_of_ne c _ hc, h2,
            splitLines_cons_of_ne c cs hc, h1]
          rfl
      · rw [hD] at h1 h2
        refine ⟨g, ?_, ?_⟩
        · rw [splitLines_cons_of_ne c cs hc, h1]
          simp only [List.cons_append, List.headI, List.tail_cons]
          rw [List.dropLast_cons_of_ne_nil (by simp), List.dropLast_concat]
          simp
        · rw [List.cons_append, splitLines_cons_of_ne c _ hc, h2,
            splitLines_cons_of_ne c cs hc, h1]
          simp only [List.cons_append, List.headI, List.tail_cons]
          rw [List.dropLast_cons_of_ne_nil (by simp), List.dropLast_concat]
          simp

theorem mem_lines_prefix_append (a b : List Char) :
    ∀ l ∈ splitLines a, ∃ m ∈ splitLines (a ++ b), l <+: m := by
  obtain ⟨g, h1, h2⟩ := splitLines_append_struc a b
  intro l hl
  rw [h1] at hl
  rcases List.mem_append.mp hl with hmem | hmem
  · exact ⟨l, by rw [h2]; exact List.mem_append_left _ hmem, List.prefix_refl l⟩
  · rw [List.mem_singleton.mp hmem]
    exact ⟨g ++ (splitLines b).headI, by rw [h2]; simp, List.prefix_append g _⟩

/-! ## Scanner lemmas -/

theorem scanAux_nil (f : List Char → Option Nat) (fuel : Nat) :
    scanAux f fuel [] = ([], []) := by
  cases fuel <;> rfl

theorem scanAux_step (f : List Char → Option Nat)
    (hf : ∀ s k, f s = some k → 0 < k) :
    ∀ fuel (s : List Char), s.length ≤ fuel →
      scanAux f (fuel + 1) s = scanAux f fuel s := by
  intro fuel
  induction fuel with
  | zero =>
    intro s hs
    rw [List.length_eq_zero.mp (Nat.le_zero.mp hs)]
    exact (scanAux_nil f 1).trans (scanAux_nil f 0).symm
  | succ n ih =>
    intro s hs
    cases s with
    | nil => exact (scanAux_nil f _).trans (scanAux_nil f _).symm
    | cons c r =>
      have hr : r.length ≤ n := by simpa using hs
      cases hm : f (c :: r) with
      | none =>
        show scanAux f (n + 1 + 1) (c :: r) = scanAux f (n + 1) (c :: r)
        simp only [scanAux, hm]
        rw [ih r hr]
      | some k =>
        have hk := hf _ _ hm
        have hlen : ((c :: r).drop k).length ≤ n := by
          simp only [List.length_drop, List.length_cons]
          omega
        show scanAux f (n + 1 + 1) (c :: r) = scanAux f (n + 1) (c :: r)
        simp only [scanAux, hm]
        rw [ih _ hlen]

theorem scanAux_eq_scanSub (f : List Char → Option Nat)
    (hf : ∀ s k, f s = some k → 0 < k) :
    ∀ fuel (s : List Char), s.length ≤ fuel →
      scanAux f fuel s = scanSub f s := by
  intro fuel
  induction fuel with
  | zero =>
    intro s hs
    rw [List.length_eq_zero.mp (Nat.le_zero.mp hs)]
    rfl
  | succ n ih =>
    intro s hs
    rcases Nat.lt_or_ge s.length (n + 1) with h | h
    · rw [scanAux_step f hf n s (Nat.lt_succ_iff.mp h)]
      exact ih s (Nat.lt_succ_iff.mp h)
    · have : s.length = n + 1 := Nat.le_antisymm hs h
      rw [scanSub, this]

theorem scanSub_cons_none {f : List Char → Option Nat} {c : Char} {r : List Char}
    (hf : ∀ s k, f s = some k → 0 < k) (hm : f (c :: r) = none) :
    scanSub f (c :: r) = ((c :: (scanSub f r).1), (scanSub f r).2) := by
  show scanAux f (r.length + 1) (c :: r) = _
  simp only [scanAux, hm]
  rw [scanAux_eq_scanSub f hf r.length r (Nat.le_refl _)]

theorem scanSub_cons_some {f : List Char → Option Nat} {c : Char} {r : List Char} {k : Nat}
    (hf : ∀ s k, f s = some k → 0 < k) (hm : f (c :: r) = some k) :
    scanSub f (c :: r)
      = ((scanSub f ((c :: r).drop k)).1,
         (c :: r).take k :: (scanSub f ((c :: r).drop k)).2) := by
  show scanAux f (r.length + 1) (c :: r) = _
  simp only [scanAux, hm]
  have hk := hf _ _ hm
  have hlen : ((c :: r).drop k).length ≤ r.length := by
    simp only [List.length_drop, List.length_cons]
    omega
  rw [scanAux_eq_scanSub f hf _ _ hlen]

/-- If no suffix of `s` matches, the scan is the identity and records
nothing. -/
theorem scanSub_id {f : List Char → Option Nat} {s : List Char}
    (hf : ∀ s k, f s = some k → 0 < k)
    (h : ∀ t, t <:+ s → f t = none) : scanSub f s = (s, []) := by
  induction s with
  | nil => rfl
  | cons c r ih =>
    rw [scanSub_cons_none hf (h (c :: r) (List.suffix_refl _))]
    rw [ih fun t ht => h t (ht.trans (List.suffix_cons c r))]

/-- The cleaned text of a scan is a subsequence of the input. -/
theorem scanSub_sublist (f : List Char → Option Nat)
    (hf : ∀ s k, f s = some k → 0 < k) (s : List Char) :
    List.Sublist (scanSub f s).1 s := by
  suffices H : ∀ n (s : List Char), s.length ≤ n → List.Sublist (scanSub f s).1 s by
    exact H s.length s (Nat.le_refl _)
  intro n
  induction n using Nat.strong_induction_on with
  | _ n ih =>
    intro s hs
    cases s with
    | nil => simp [scanSub, scanAux]
    | cons c r =>
      have hn1 : 1 ≤ n := le_trans (by simp) hs
      simp only [List.length_cons] at hs
      cases hm : f (c :: r) with
      | none =>
        rw [scanSub_cons_none hf hm]
        exact List.Sublist.cons₂ c (ih (n - 1) (by omega) r (by omega))
      | some k =>
        rw [scanSub_cons_some hf hm]
        have hk := hf _ _ hm
        have hb : ((c :: r).drop k).length ≤ n - 1 := by
          simp only [List.length_drop, List.length_cons]
          omega
        exact (ih (n - 1) (by omega) _ hb).trans (List.drop_sublist k (c :: r))

/-- Every recorded match of a scan is `t.take k` for some suffix `t` of the
input on which the matcher reports length `k`. -/
theorem scanSub_mem_rec {f : List Char → Option Nat} (s : List Char)
    (hf : ∀ s k, f s = some k → 0 < k) :
    ∀ m ∈ (scanSub f s).2, ∃ t k, t <:+ s ∧ f t = some k ∧ m = t.take k := by
  suffices H : ∀ n (s : List Char), s.length ≤ n →
      ∀ m ∈ (scanSub f s).2, ∃ t k, t <:+ s ∧ f t = some k ∧ m = t.take k by
    exact H s.length s (Nat.le_refl _)
  intro n
  induction n using Nat.strong_induction_on with
  | _ n ih =>
    intro s hs
    cases s with
    | nil => simp [scanSub, scanAux]
    | cons c r =>
      have hn1 : 1 ≤ n := le_trans (by simp) hs
      simp only [List.length_cons] at hs
      intro m hm
      cases hmc : f (c :: r) with
      | none =>
        rw [scanSub_cons_none hf hmc] at hm
        obtain ⟨t, k, ht, hfk, heq⟩ := ih (n - 1) (by omega) r (by omega) m hm
        exact ⟨t, k, ht.trans (List.suffix_cons c r), hfk, heq⟩
      | some k =>
        rw [scanSub_cons_some hf hmc] at hm
        rcases List.mem_cons.mp hm with heq | hmem
        · exact ⟨c :: r, k, List.suffix_refl _, hmc, heq⟩
        · have hk := hf _ _ hmc
          have hb : ((c :: r).drop k).length ≤ n - 1 := by
            simp only [List.length_drop, List.length_cons]
            omega
          obtain ⟨t, k₂, ht, hfk, heq⟩ := ih (n - 1) (by omega) _ hb m hmem
          exact ⟨t, k₂, ht.trans (List.drop_suffix k (c :: r)), hfk, heq⟩

end DeAiAgent

namespace DeAiAgent

/-! ## Case-sensitive matching toolkit -/

theorem isPrefixAt_append {p t e : List Char} (h : isPrefixAt p t = true) :
    isPrefixAt p (t ++ e) = true := by
  induction p generalizing t with
  | nil => rfl
  | cons a ps ih =>
    cases t with
    | nil => exact absurd h (by simp [isPrefixAt])
    | cons c cs =>
      simp only [isPrefixAt, Bool.and_eq_true] at h ⊢
      exact ⟨h.1, ih h.2⟩

theorem isPrefixAt_length {p t : List Char} (h : isPrefixAt p t = true) :
    p.length ≤ t.length := by
  induction p generalizing t with
  | nil => simp
  | cons a ps ih =>
    cases t with
    | nil => exact absurd h (by simp [isPrefixAt])
    | cons c cs =>
      simp only [isPrefixAt, Bool.and_eq_true] at h
      simpa using ih h.2

theorem isPrefixAt_of_append {p t e : List Char} (hlen : p.length ≤ t.length)
    (h : isPrefixAt p (t ++ e) = true) : isPrefixAt p t = true := by
  induction p generalizing t with
  | nil => rfl
  | cons a ps ih =>
    cases t with
    | nil => simp at hlen
    | cons c cs =>
      simp only [List.cons_append, isPrefixAt, Bool.and_eq_true] at h ⊢
      exact ⟨h.1, ih (by simpa using hlen) h.2⟩

theorem containsSeq_iff {p s : List Char} :
    containsSeq p s = true ↔ ∃ t, t <:+ s ∧ isPrefixAt p t = true := by
  induction s with
  | nil =>
    simp only [containsSeq]
    constructor
    · intro h; exact ⟨[], List.suffix_refl _, h⟩
    · rintro ⟨t, ht, hp⟩
      rwa [List.suffix_nil.mp ht] at hp
  | cons c cs ih =>
    simp only [containsSeq, Bool.or_eq_true, ih]
    constructor
    · rintro (h | ⟨t, ht, hp⟩)
      · exact ⟨c :: cs, List.suffix_refl _, h⟩
      · exact ⟨t, ht.trans (List.suffix_cons c cs), hp⟩
    · rintro ⟨t, ht, hp⟩
      rcases List.suffix_cons_iff.mp ht with h | h
      · exact Or.inl (h ▸ hp)
      · exact Or.inr ⟨t, h, hp⟩

theorem containsSeq_of_suffix {p s s' : List Char} (hss : s <:+ s')
    (h : containsSeq p s = true) : containsSeq p s' = true := by
  rw [containsSeq_iff] at h ⊢
  obtain ⟨t, ht, hp⟩ := h
  exact ⟨t, ht.trans hss, hp⟩

theorem containsSeq_of_prefix {p t t' : List Char} (htt : t <+: t')
    (h : containsSeq p t = true) : containsSeq p t' = true := by
  rw [containsSeq_iff] at h ⊢
  obtain ⟨u, hu, hp⟩ := h
  obtain ⟨e, rfl⟩ := htt
  obtain ⟨x, rfl⟩ := hu
  exact ⟨u ++ e, ⟨x, by rw [List.append_assoc]⟩, isPrefixAt_append hp⟩

theorem suffix_append_cases {t a b : List Char} (h : t <:+ a ++ b) :
    t <:+ b ∨ ∃ x, x <:+ a ∧ x ≠ [] ∧ t = x ++ b := by
  induction a with
  | nil => exact Or.inl (by simpa using h)
  | cons c cs ih =>
    rcases List.suffix_cons_iff.mp h with heq | hsuf
    · exact Or.inr ⟨c :: cs, List.suffix_refl _, by simp, heq⟩
    · rcases ih hsuf with h1 | ⟨x, hx, hxne, rfl⟩
      · exact Or.inl h1
      · exact Or.inr ⟨x, hx.trans (List.suffix_cons c cs), hxne, rfl⟩

theorem getLast?_of_suffix {t s : List Char} (h : t <:+ s) (hne : t ≠ []) :
    s.getLast? = t.getLast? := by
  obtain ⟨w, rfl⟩ := h
  exact List.getLast?_append_of_ne_nil w hne

/-! ## Collapse lemmas -/

theorem mem_collapseGo {x : Char} : ∀ (s : List Char) (n : Nat),
    x ∈ collapseGo n s → x = '\n' ∨ x ∈ s := by
  intro s
  induction s with
  | nil =>
    intro n h
    simp only [collapseGo] at h
    exact Or.inl (List.eq_of_mem_replicate h)
  | cons c r ih =>
    intro n h
    by_cases hc : c = '\n'
    · simp only [collapseGo, hc, if_true, reduceIte] at h
      rcases ih (n + 1) h with h1 | h1
      · exact Or.inl h1
      · exact Or.inr (List.mem_cons_of_mem c h1)
    · simp only [collapseGo, hc, if_false, reduceIte, List.mem_append, List.mem_cons] at h
      rcases h with h1 | h1 | h1
      · exact Or.inl (List.eq_of_mem_replicate h1)
      · exact Or.inr (by simp [h1])
      · rcases ih 0 h1 with h2 | h2
        · exact Or.inl h2
        · exact Or.inr (List.mem_cons_of_mem c h2)

theorem mem_collapseNl {x : Char} {s : List Char} (h : x ∈ collapseNl s) :
    x = '\n' ∨ x ∈ s := mem_collapseGo s 0 h

theorem isPrefixAt_nl3_of_all_nl {a : List Char} {c : Char} {y : List Char}
    (hall : ∀ x ∈ a, x = '\n') (hlen : a.length ≤ 2) (hc : c ≠ '\n') :
    isPrefixAt "\n\n\n".data (a ++ c :: y) = false := by
  rcases a with _ | ⟨x1, _ | ⟨x2, _ | ⟨x3, t⟩⟩⟩
  · simp [isPrefixAt, hc]
  · have := hall x1 (by simp)
    subst this
    simp [isPrefixAt, hc]
  · have h1 := hall x1 (by simp)
    have h2 := hall x2 (by simp)
    subst h1; subst h2
    simp [isPrefixAt, hc]
  · simp at hlen

theorem noTriple_replicate {k : Nat} (hk : k ≤ 2) :
    containsSeq "\n\n\n".data (List.replicate k '\n') = false := by
  interval_cases k <;> decide

theorem noTriple_run_cons {k : Nat} {c : Char} {y : List Char} (hk : k ≤ 2)
    (hc : c ≠ '\n') (hy : containsSeq "\n\n\n".data y = false) :
    containsSeq "\n\n\n".data (List.replicate k '\n' ++ c :: y) = false := by
  by_contra hcon
  rw [Bool.not_eq_false, containsSeq_iff] at hcon
  obtain ⟨t, ht, hp⟩ := hcon
  rcases suffix_append_cases ht with hsuf | ⟨x, hx, hxne, rfl⟩
  · rcases List.suffix_cons_iff.mp hsuf with heq | hsuf2
    · subst heq
      simp [isPrefixAt, hc] at hp
    · have hcy : containsSeq "\n\n\n".data y = true :=
        containsSeq_iff.mpr ⟨t, hsuf2, hp⟩
      simp [hy] at hcy
  · have hall : ∀ z ∈ x, z = '\n' := fun z hz =>
      List.eq_of_mem_replicate (hx.subset hz)
    have hxlen : x.length ≤ 2 :=
      le_trans (by simpa using hx.length_le) hk
    rw [isPrefixAt_nl3_of_all_nl hall hxlen hc] at hp
    exact Bool.false_ne_true hp

theorem noTriple_collapseGo : ∀ (s : List Char) (n : Nat),
    containsSeq "\n\n\n".data (collapseGo n s) = false := by
  intro s
  induction s with
  | nil =>
    intro n
    simp only [collapseGo]
    exact noTriple_replicate (Nat.min_le_right n 2)
  | cons c r ih =>
    intro n
    by_cases hc : c = '\n'
    · simp only [collapseGo, hc, if_true, reduceIte]
      exact ih (n + 1)
    · simp only [collapseGo, hc, if_false, reduceIte]
      exact noTriple_run_cons (Nat.min_le_right n 2) hc (ih 0)

theorem noTriple_collapseNl (s : List Char) :
    containsSeq "\n\n\n".data (collapseNl s) = false :=
  noTriple_collapseGo s 0

theorem leadNl_ge3_triple {r : List Char}
    (h : 3 ≤ (r.takeWhile (fun c => c = '\n')).length) :
    isPrefixAt "\n\n\n".data r = true := by
  rcases r with _ | ⟨c1, _ | ⟨c2, _ | ⟨c3, t⟩⟩⟩
  · simp [List.takeWhile] at h
  · by_cases h1 : c1 = '\n' <;> simp [List.takeWhile_cons, h1] at h
  · by_cases h1 : c1 = '\n' <;> by_cases h2 : c2 = '\n' <;>
      simp [List.takeWhile_cons, h1, h2] at h
  · by_cases h1 : c1 = '\n'
    · by_cases h2 : c2 = '\n'
      · by_cases h3 : c3 = '\n'
        · subst h1; subst h2; subst h3
          simp [isPrefixAt]
        · simp [List.takeWhile_cons, h1, h2, h3] at h
      · simp [List.takeWhile_cons, h1, h2] at h
    · simp [List.takeWhile_cons, h1] at h

theorem collapseGo_fix : ∀ (s : List Char) (n : Nat),
    n + (s.takeWhile (fun c => c = '\n')).length ≤ 2 →
    containsSeq "\n\n\n".data s = false →
    collapseGo n s = List.replicate n '\n' ++ s := by
  intro s
  induction s with
  | nil =>
    intro n hn _
    simp only [collapseGo, List.append_nil]
    rw [Nat.min_eq_left (by simpa using hn)]
  | cons c r ih =>
    intro n hn hs
    by_cases hc : c = '\n'
    · subst hc
      simp only [collapseGo, if_true, reduceIte]
      have hlead : (n + 1) + (r.takeWhile (fun c => c = '\n')).length ≤ 2 := by
        simp at hn
        omega
      have hr : containsSeq "\n\n\n".data r = false := by
        have := hs
        simp only [containsSeq, Bool.or_eq_false_iff] at this
        exact this.2
      rw [ih (n + 1) hlead hr, List.replicate_succ' n '\n']
      simp
    · simp only [collapseGo, hc, if_false, reduceIte]
      have hn2 : n ≤ 2 := by
        simp only [List.takeWhile_cons, hc, if_false, reduceIte] at hn
        simpa using hn
      have hr : containsSeq "\n\n\n".data r = false := by
        simp only [containsSeq, Bool.or_eq_false_iff] at hs
        exact hs.2
      have hlead : 0 + (r.takeWhile (fun c => c = '\n')).length ≤ 2 := by
        by_contra hcon
        push_neg at hcon
        have htr := leadNl_ge3_triple (r := r) (by omega)
        have hcr : containsSeq "\n\n\n".data r = true :=
          containsSeq_iff.mpr ⟨r, List.suffix_refl r, htr⟩
        simp [hr] at hcr
      rw [Nat.min_eq_left hn2, ih 0 hlead hr]
      simp

theorem collapseNl_fix {s : List Char}
    (h : containsSeq "\n\n\n".data s = false) : collapseNl s = s := by
  have hlead : 0 + (s.takeWhile (fun c => c = '\n')).length ≤ 2 := by
    by_contra hcon
    push_neg at hcon
    have hts := leadNl_ge3_triple (r := s) (by omega)
    have hcs : containsSeq "\n\n\n".data s = true :=
      containsSeq_iff.mpr ⟨s, List.suffix_refl s, hts⟩
    simp [h] at hcs
  simpa using collapseGo_fix s 0 hlead h

end DeAiAgent

namespace DeAiAgent

/-! ## Non-newline runs under collapse -/

theorem nonNlRuns_nil : nonNlRuns [] = [] := rfl

theorem nonNlRuns_nl_cons (x : List Char) : nonNlRuns ('\n' :: x) = nonNlRuns x := by
  simp [nonNlRuns, splitLines]

theorem nonNlRuns_decomp (x : List Char) :
    nonNlRuns x = (if takeLine x = [] then [] else [takeLine x])
      ++ ((splitLines x).tail.filter (fun l => l ≠ [])) := by
  have hcons : splitLines x = (splitLines x).headI :: (splitLines x).tail := by
    cases h : splitLines x with
    | nil => exact absurd h (splitLines_ne_nil x)
    | cons a as => simp
  rw [nonNlRuns, hcons, List.filter_cons, headI_splitLines]
  by_cases h : takeLine x = [] <;> simp [h]

theorem nonNlRuns_replicate (k : Nat) (y : List Char) :
    nonNlRuns (List.replicate k '\n' ++ y) = nonNlRuns y := by
  induction k with
  | zero => simp
  | succ n ih => rw [List.replicate_succ, List.cons_append, nonNlRuns_nl_cons, ih]

theorem takeLine_collapseGo_pos : ∀ (s : List Char) (n : Nat), 1 ≤ n →
    takeLine (collapseGo n s) = [] := by
  intro s
  induction s with
  | nil =>
    intro n hn
    simp only [collapseGo]
    have : min n 2 = 1 ∨ min n 2 = 2 := by omega
    rcases this with h | h <;> rw [h] <;> rfl
  | cons c r ih =>
    intro n hn
    by_cases hc : c = '\n'
    · simp only [collapseGo, hc, if_true, reduceIte]
      exact ih (n + 1) (by omega)
    · simp only [collapseGo, hc, if_false, reduceIte]
      have : min n 2 = 1 ∨ min n 2 = 2 := by omega
      rcases this with h | h <;> rw [h] <;> rfl

theorem takeLine_collapseGo_zero : ∀ (r : List Char),
    takeLine (collapseGo 0 r) = takeLine r := by
  intro r
  induction r with
  | nil => rfl
  | cons c r ih =>
    by_cases hc : c = '\n'
    · simp only [collapseGo, hc, if_true, reduceIte]
      rw [takeLine_collapseGo_pos r 1 (le_refl _), takeLine_cons]
      simp
    · simp only [collapseGo, hc, if_false, reduceIte, Nat.min_self,
        List.replicate, List.nil_append]
      rw [takeLine_cons, takeLine_cons, if_neg hc, if_neg hc, ih]

theorem nonNlRuns_collapseGo : ∀ (s : List Char) (n : Nat),
    nonNlRuns (collapseGo n s) = nonNlRuns s := by
  intro s
  induction s with
  | nil =>
    intro n
    simp only [collapseGo]
    have := nonNlRuns_replicate (min n 2) []
    simpa using this
  | cons c r ih =>
    intro n
    by_cases hc : c = '\n'
    · simp only [collapseGo, hc, if_true, reduceIte]
      rw [ih (n + 1), nonNlRuns_nl_cons]
    · simp only [collapseGo, hc, if_false, reduceIte]
      rw [nonNlRuns_replicate]
      have h0 := ih 0
      rw [nonNlRuns_decomp (c :: collapseGo 0 r), nonNlRuns_decomp (c :: r)]
      rw [takeLine_cons, takeLine_cons, if_neg hc, if_neg hc,
        takeLine_collapseGo_zero r]
      have htails : (splitLines (c :: collapseGo 0 r)).tail.filter (fun l => l ≠ [])
          = (splitLines (c :: r)).tail.filter (fun l => l ≠ []) := by
        rw [splitLines_cons_of_ne c _ hc, splitLines_cons_of_ne c r hc]
        simp only [List.tail_cons]
        rw [nonNlRuns_decomp (collapseGo 0 r), nonNlRuns_decomp r,
          takeLine_collapseGo_zero r] at h0
        by_cases ht : takeLine r = []
        · simpa [ht] using h0
        · simpa [ht] using h0
      rw [htails]

theorem nonNlRuns_collapseNl (s : List Char) :
    nonNlRuns (collapseNl s) = nonNlRuns s := nonNlRuns_collapseGo s 0

/-! ## rstrip and finalize -/

theorem rstripPy_prefix (s : List Char) : rstripPy s <+: s := by
  obtain ⟨x, hx⟩ := List.dropWhile_suffix (l := s.reverse) (p := isPySpace)
  refine ⟨x.reverse, ?_⟩
  have := congrArg List.reverse hx
  simpa [rstripPy] using this

theorem headq_dropWhile {p : Char → Bool} {c : Char} : ∀ {l : List Char},
    (l.dropWhile p).head? = some c → p c = false := by
  intro l
  induction l with
  | nil => simp
  | cons a t ih =>
    intro h
    by_cases hp : p a
    · rw [List.dropWhile_cons_of_pos hp] at h
      exact ih h
    · rw [List.dropWhile_cons_of_neg hp] at h
      simp only [List.head?_cons, Option.some.injEq] at h
      subst h
      exact Bool.eq_false_iff.mpr hp

theorem getLast?_rstripPy {s : List Char} {c : Char}
    (h : (rstripPy s).getLast? = some c) : isPySpace c = false := by
  rw [rstripPy, List.getLast?_reverse] at h
  exact headq_dropWhile h

theorem rstripPy_eq_self {s : List Char}
    (h : ∀ c, s.getLast? = some c → isPySpace c = false) : rstripPy s = s := by
  rw [rstripPy]
  have hrev : s.reverse.dropWhile isPySpace = s.reverse := by
    cases hr : s.reverse with
    | nil => rfl
    | cons a t =>
      have ha : s.getLast? = some a := by
        rw [← List.head?_reverse, hr, List.head?_cons]
      rw [List.dropWhile_cons_of_neg (by rw [h a ha]; simp)]
  rw [hrev, List.reverse_reverse]

theorem rstripPy_append_nl (s : List Char) : rstripPy (s ++ ['\n']) = rstripPy s := by
  rw [rstripPy, rstripPy, List.reverse_append]
  simp only [List.reverse_singleton, List.singleton_append]
  rw [List.dropWhile_cons_of_pos (by simp [isPySpace])]

theorem rstripPy_idem (s : List Char) : rstripPy (rstripPy s) = rstripPy s := by
  apply rstripPy_eq_self
  intro c hc
  exact getLast?_rstripPy hc

theorem finalizeMsg_rstrip (s : List Char) :
    rstripPy (finalizeMsg s) = rstripPy s := by
  rw [finalizeMsg]
  by_cases h : rstripPy s = []
  · rw [if_pos h, h]
    rfl
  · rw [if_neg h, rstripPy_append_nl, rstripPy_idem]

theorem finalizeMsg_idem (s : List Char) :
    finalizeMsg (finalizeMsg s) = finalizeMsg s := by
  conv_lhs => rw [finalizeMsg]
  rw [finalizeMsg_rstrip]
  by_cases h : rstripPy s = []
  · simp [finalizeMsg, h]
  · rw [if_neg h, finalizeMsg, if_neg h]

theorem length_ge_isPrefixAt_nl3 {t : List Char}
    (h : isPrefixAt "\n\n\n".data t = true) : 3 ≤ t.length := by
  have := isPrefixAt_length h
  simpa using this

theorem noTriple_finalizeMsg {s : List Char}
    (h : containsSeq "\n\n\n".data s = false) :
    containsSeq "\n\n\n".data (finalizeMsg s) = false := by
  rw [finalizeMsg]
  by_cases hz : rstripPy s = []
  · simp [hz]
    decide
  · rw [if_neg hz]
    have hzpre : containsSeq "\n\n\n".data (rstripPy s) = false := by
      by_contra hcon
      rw [Bool.not_eq_false] at hcon
      have := containsSeq_of_prefix ( rstripPy_prefix s) hcon
      simp [h] at this
    by_contra hcon
    rw [Bool.not_eq_false, containsSeq_iff] at hcon
    obtain ⟨t, ht, hp⟩ := hcon
    rcases suffix_append_cases ht with hsuf | ⟨x, hx, hxne, rfl⟩
    · have h3 := length_ge_isPrefixAt_nl3 hp
      have := hsuf.length_le
      simp at this
      omega
    · rcases Nat.lt_or_ge x.length 3 with hxlen | hxlen
      · have h3 := length_ge_isPrefixAt_nl3 hp
        simp only [List.length_append, List.length_singleton] at h3
        have hx2 : x.length = 2 := by omega
        rcases x with _ | ⟨a, _ | ⟨b, _ | ⟨d, u⟩⟩⟩
        · simp at hx2
        · simp at hx2
        · simp only [isPrefixAt, List.cons_append, List.nil_append,
            Bool.and_eq_true, beq_iff_eq] at hp
          have hb : b = '\n' := hp.2.1
          have hlast : (rstripPy s).getLast? = some '\n' := by
            rw [getLast?_of_suffix hx (by simp)]
            simp [hb]
          have := getLast?_rstripPy hlast
          simp [isPySpace] at this
        · simp at hx2
      · have hpx : isPrefixAt "\n\n\n".data x = true :=
          isPrefixAt_of_append (by simpa using hxlen) hp
        have : containsSeq "\n\n\n".data (rstripPy s) = true :=
          containsSeq_iff.mpr ⟨x, hx, hpx⟩
        simp [hzpre] at this

end DeAiAgent

namespace DeAiAgent

/-! ## Matcher properties -/

theorem genWithLit_length : genWithLit.length = 14 := by decide

theorem dropWhile_via_drop (p : Char → Bool) : ∀ (l : List Char),
    l.drop (l.takeWhile p).length = l.dropWhile p := by
  intro l
  induction l with
  | nil => rfl
  | cons a t ih =>
    by_cases hp : p a
    · rw [List.takeWhile_cons_of_pos hp, List.dropWhile_cons_of_pos hp,
        List.length_cons, List.drop_succ_cons]
      exact ih
    · rw [List.takeWhile_cons_of_neg hp, List.dropWhile_cons_of_neg hp]
      rfl

theorem dropLine_shape (x : List Char) : dropLine x = [] ∨ ∃ r, dropLine x = '\n' :: r := by
  induction x with
  | nil => exact Or.inl rfl
  | cons c t ih =>
    rw [dropLine_cons]
    by_cases hc : c = '\n'
    · subst hc
      exact Or.inr ⟨t, by simp⟩
    · simpa [hc] using ih

theorem dropLine_via_drop (x : List Char) :
    x.drop (takeLine x).length = dropLine x :=
  dropWhile_via_drop _ x

theorem plainMatchLen_eq_some {s : List Char} {k : Nat} :
    plainMatchLen s = some k ↔
      isPrefixCI genWithLit s = true ∧
      occursAnyCI brandTokens (takeLine (s.drop genWithLit.length)) = true ∧
      k = genWithLit.length + (takeLine (s.drop genWithLit.length)).length := by
  unfold plainMatchLen
  dsimp only
  split_ifs with h1 h2
  · simp only [Option.some.injEq]
    constructor
    · intro h
      exact ⟨h1, h2, h.symm⟩
    · rintro ⟨-, -, rfl⟩
      rfl
  · constructor
    · intro h; simp at h
    · rintro ⟨-, hb, -⟩; exact absurd hb h2
  · constructor
    · intro h; simp at h
    · rintro ⟨ha, -, -⟩; exact absurd ha h1

theorem plainMatchLen_pos : ∀ (s : List Char) (k : Nat),
    plainMatchLen s = some k → 0 < k := by
  intro s k h
  obtain ⟨-, -, rfl⟩ := plainMatchLen_eq_some.mp h
  have := genWithLit_length
  omega

theorem plainMatchLen_drop {s : List Char} {k : Nat} (h : plainMatchLen s = some k) :
    s.drop k = dropLine (s.drop genWithLit.length) := by
  obtain ⟨-, -, rfl⟩ := plainMatchLen_eq_some.mp h
  have hdd : (s.drop genWithLit.length).drop
      ((takeLine (s.drop genWithLit.length)).length)
      = s.drop (genWithLit.length + (takeLine (s.drop genWithLit.length)).length) := by
    rw [List.drop_drop]
  rw [← hdd, dropLine_via_drop]

theorem plainMatchLen_rest_shape {s : List Char} {k : Nat}
    (h : plainMatchLen s = some k) :
    s.drop k = [] ∨ ∃ r, s.drop k = '\n' :: r := by
  rw [plainMatchLen_drop h]
  exact dropLine_shape _

theorem plainMatchLen_nl (r : List Char) : plainMatchLen ('\n' :: r) = none := by
  have hpre : isPrefixCI genWithLit ('\n' :: r) = false := by
    rw [show genWithLit = 'g' :: "enerated with".data from rfl]
    simp only [isPrefixCI, Bool.and_eq_true]
    simp [show (lowerChar '\n' == lowerChar 'g') = false by decide]
  unfold plainMatchLen
  dsimp only
  rw [hpre]
  simp

theorem emojiMatchLen_eq_some {c : Char} {r : List Char} {k : Nat} :
    emojiMatchLen (c :: r) = some k ↔
      emojiMarkers.contains c = true ∧
      isPrefixCI genWithLit (r.drop (r.takeWhile isPySpace).length) = true ∧
      occursAnyCI brandTokens
        (takeLine ((r.drop (r.takeWhile isPySpace).length).drop genWithLit.length)) = true ∧
      k = 1 + (r.takeWhile isPySpace).length + genWithLit.length
        + (takeLine ((r.drop (r.takeWhile isPySpace).length).drop genWithLit.length)).length := by
  unfold emojiMatchLen
  dsimp only
  split_ifs with h1 h2 h3
  · simp only [Option.some.injEq]
    constructor
    · intro h
      exact ⟨h1, h2, h3, h.symm⟩
    · rintro ⟨-, -, -, rfl⟩
      rfl
  · constructor
    · intro h; simp at h
    · rintro ⟨-, -, hb, -⟩; exact absurd hb h3
  · constructor
    · intro h; simp at h
    · rintro ⟨-, hb, -, -⟩; exact absurd hb h2
  · constructor
    · intro h; simp at h
    · rintro ⟨hb, -, -, -⟩; exact absurd hb h1

theorem emojiMatchLen_pos : ∀ (s : List Char) (k : Nat),
    emojiMatchLen s = some k → 0 < k := by
  intro s k h
  cases s with
  | nil => simp [emojiMatchLen] at h
  | cons c r =>
    obtain ⟨-, -, -, rfl⟩ := emojiMatchLen_eq_some.mp h
    omega

theorem emojiMatchLen_nl (r : List Char) : emojiMatchLen ('\n' :: r) = none := by
  unfold emojiMatchLen
  dsimp only
  rw [show (emojiMarkers.contains '\n') = false by decide]
  simp

theorem emojiMatchLen_drop {c : Char} {r : List Char} {k : Nat}
    (h : emojiMatchLen (c :: r) = some k) :
    (c :: r).drop k
      = dropLine ((r.drop (r.takeWhile isPySpace).length).drop genWithLit.length) := by
  obtain ⟨-, -, -, rfl⟩ := emojiMatchLen_eq_some.mp h
  have h1 : (c :: r).drop (1 + (r.takeWhile isPySpace).length + genWithLit.length
      + (takeLine ((r.drop (r.takeWhile isPySpace).length).drop genWithLit.length)).length)
      = r.drop ((r.takeWhile isPySpace).length + genWithLit.length
        + (takeLine ((r.drop (r.takeWhile isPySpace).length).drop genWithLit.length)).length) := by
    have harr : 1 + (r.takeWhile isPySpace).length + genWithLit.length
        + (takeLine ((r.drop (r.takeWhile isPySpace).length).drop genWithLit.length)).length
        = ((r.takeWhile isPySpace).length + genWithLit.length
          + (takeLine ((r.drop (r.takeWhile isPySpace).length).drop genWithLit.length)).length)
          + 1 := by omega
    rw [harr, List.drop_succ_cons]
  rw [h1]
  have h2 : ((r.drop (r.takeWhile isPySpace).length).drop genWithLit.length).drop
      ((takeLine ((r.drop (r.takeWhile isPySpace).length).drop genWithLit.length)).length)
      = r.drop ((r.takeWhile isPySpace).length + genWithLit.length
        + (takeLine ((r.drop (r.takeWhile isPySpace).length).drop genWithLit.length)).length) := by
    rw [List.drop_drop, List.drop_drop]
    congr 1
    omega
  rw [← h2, dropLine_via_drop]

theorem emojiMatchLen_rest_shape {s : List Char} {k : Nat}
    (h : emojiMatchLen s = some k) :
    s.drop k = [] ∨ ∃ r, s.drop k = '\n' :: r := by
  cases s with
  | nil => simp [emojiMatchLen] at h
  | cons c r =>
    rw [emojiMatchLen_drop h]
    exact dropLine_shape _

/-- An emoji-pattern match contains a plain-pattern match: the suffix starting
after the emoji marker and whitespace run matches the plain pattern. -/
theorem emoji_some_to_plain {s : List Char} {k : Nat}
    (h : emojiMatchLen s = some k) :
    ∃ t k2, t <:+ s ∧ plainMatchLen t = some k2 := by
  cases s with
  | nil => simp [emojiMatchLen] at h
  | cons c r =>
    obtain ⟨-, h2, h3, -⟩ := emojiMatchLen_eq_some.mp h
    refine ⟨r.drop (r.takeWhile isPySpace).length,
      genWithLit.length
        + (takeLine ((r.drop (r.takeWhile isPySpace).length).drop genWithLit.length)).length,
      (List.drop_suffix _ r).trans (List.suffix_cons c r), ?_⟩
    rw [plainMatchLen_eq_some]
    exact ⟨h2, h3, rfl⟩

theorem labelRest_pos {L r : List Char} {n : Nat} (h : labelRest L r = some n) :
    0 < n := by
  unfold labelRest at h
  split_ifs at h with h1
  · rcases hd : r.drop L.length with _ | ⟨b1, _ | ⟨b2, rest3⟩⟩ <;> rw [hd] at h <;>
      dsimp only at h
    · simp at h
    · simp at h
    · split_ifs at h with h2
      · rcases hd2 : rest3.drop (rest3.takeWhile (fun c => c ≠ ')')).length
          with _ | ⟨d, rest4⟩ <;> rw [hd2] at h <;> dsimp only at h
        · simp at h
        · split_ifs at h with h3
          simp only [Option.some.injEq] at h
          omega

theorem tryLabels_pos : ∀ (Ls : List (List Char)) (r : List Char) (n : Nat),
    tryLabels Ls r = some n → 0 < n := by
  intro Ls
  induction Ls with
  | nil => intro r n h; simp [tryLabels] at h
  | cons L Ls ih =>
    intro r n h
    unfold tryLabels at h
    cases hl : labelRest L r with
    | some m =>
      rw [hl] at h
      simp only [Option.some.injEq] at h
      exact h ▸ labelRest_pos hl
    | none =>
      rw [hl] at h
      exact ih r n h

theorem linkMatchLen_pos : ∀ (s : List Char) (k : Nat),
    linkMatchLen s = some k → 0 < k := by
  intro s k h
  cases s with
  | nil => simp [linkMatchLen] at h
  | cons c r =>
    unfold linkMatchLen at h
    dsimp only at h
    split_ifs at h with hc
    exact tryLabels_pos _ _ _ h

theorem linkMatchLen_some_head {t : List Char} {k : Nat}
    (h : linkMatchLen t = some k) : ∃ r, t = '[' :: r := by
  cases t with
  | nil => simp [linkMatchLen] at h
  | cons c r =>
    unfold linkMatchLen at h
    dsimp only at h
    split_ifs at h with hc
    exact ⟨r, by rw [hc]⟩

theorem linkMatchLen_nl (r : List Char) : linkMatchLen ('\n' :: r) = none := by
  unfold linkMatchLen
  dsimp only
  simp

end DeAiAgent

namespace DeAiAgent

/-! ## Further matching helpers -/

theorem takeWhile_via_take (p : Char → Bool) : ∀ (l : List Char),
    l.take (l.takeWhile p).length = l.takeWhile p := by
  intro l
  induction l with
  | nil => rfl
  | cons a t ih =>
    by_cases hp : p a
    · rw [List.takeWhile_cons_of_pos hp, List.length_cons, List.take_succ_cons, ih]
    · rw [List.takeWhile_cons_of_neg hp]
      rfl

theorem takeLine_of_no_nl {x : List Char} (h : '\n' ∉ x) : takeLine x = x := by
  induction x with
  | nil => rfl
  | cons c t ih =>
    simp only [List.mem_cons, not_or] at h
    rw [takeLine_cons, if_neg (fun hh => h.1 hh.symm), ih h.2]

theorem lowerStr_length (x : List Char) : (lowerStr x).length = x.length := by
  simp [lowerStr]

theorem isPrefixCI_of_lower {p g : List Char} (h : lowerStr g = lowerStr p)
    (e : List Char) : isPrefixCI p (g ++ e) = true := by
  induction p generalizing g with
  | nil => rfl
  | cons a ps ih =>
    cases g with
    | nil => simp [lowerStr] at h
    | cons c cs =>
      simp only [lowerStr, List.map_cons, List.cons.injEq] at h
      simp only [List.cons_append, isPrefixCI, Bool.and_eq_true, beq_iff_eq]
      exact ⟨h.1, ih h.2⟩

theorem isPrefixCI_take {p r : List Char} (h : isPrefixCI p r = true) :
    lowerStr (r.take p.length) = lowerStr p := by
  induction p generalizing r with
  | nil => rfl
  | cons a ps ih =>
    cases r with
    | nil => exact absurd h (by simp [isPrefixCI])
    | cons c cs =>
      simp only [isPrefixCI, Bool.and_eq_true, beq_iff_eq] at h
      simp only [List.length_cons, List.take_succ_cons, lowerStr, List.map_cons,
        List.cons.injEq]
      exact ⟨h.1, ih h.2⟩

theorem plainMatchLen_nil : plainMatchLen [] = none := by decide

/-! ## Scan identity conditions -/

theorem emoji_scan_id {s : List Char} (h : ∀ e ∈ emojiMarkers, e ∉ s) :
    scanSub emojiMatchLen s = (s, []) := by
  apply scanSub_id emojiMatchLen_pos
  intro t ht
  cases t with
  | nil => rfl
  | cons c r =>
    cases hm : emojiMatchLen (c :: r) with
    | none => rfl
    | some k =>
      obtain ⟨hc, -, -, -⟩ := emojiMatchLen_eq_some.mp hm
      have hcm : c ∈ emojiMarkers := by
        simpa using hc
      exact absurd (ht.subset (by simp)) (h c hcm)

theorem plain_scan_id_of_none {s : List Char}
    (h : ∀ t, t <:+ s → plainMatchLen t = none) :
    scanSub plainMatchLen s = (s, []) :=
  scanSub_id plainMatchLen_pos h

theorem plain_scan_id_of_no_genwith {s : List Char}
    (h : occursCI genWithLit s = false) :
    scanSub plainMatchLen s = (s, []) := by
  apply scanSub_id plainMatchLen_pos
  intro t ht
  cases hm : plainMatchLen t with
  | none => rfl
  | some k =>
    obtain ⟨hp, -, -⟩ := plainMatchLen_eq_some.mp hm
    have : occursCI genWithLit s = true := occursCI_iff.mpr ⟨t, ht, hp⟩
    simp [h] at this

theorem link_scan_id_of_no_bracket {s : List Char} (h : '[' ∉ s) :
    scanSub linkMatchLen s = (s, []) := by
  apply scanSub_id linkMatchLen_pos
  intro t ht
  cases hm : linkMatchLen t with
  | none => rfl
  | some k =>
    obtain ⟨r, rfl⟩ := linkMatchLen_some_head hm
    exact absurd (ht.subset (by simp)) h

/-! ## Unfolded forms of the passes -/

theorem remove_branding_eq (text : List Char) :
    remove_branding text
      = (finalizeMsg (collapseNl
          (scanSub linkMatchLen
            (scanSub plainMatchLen (scanSub emojiMatchLen text).1).1).1),
         (scanSub emojiMatchLen text).2
           ++ (scanSub plainMatchLen (scanSub emojiMatchLen text).1).2
           ++ (scanSub linkMatchLen
                (scanSub plainMatchLen (scanSub emojiMatchLen text).1).1).2) := rfl

theorem sanitize_default_eq (text : List Char) :
    sanitize_commit_message text false false
      = ((remove_branding (remove_coauthor text).1).1,
         ⟨(remove_coauthor text).2, (remove_branding (remove_coauthor text).1).2⟩) := rfl

/-- Scanning `a ++ u` when no position inside `a` matches and `u` itself
matches with length `k`: the scan keeps `a`, records `u.take k`, and
continues on `u.drop k`. -/
theorem scanSub_append_first {f : List Char → Option Nat} {a u : List Char} {k : Nat}
    (hf : ∀ s k, f s = some k → 0 < k)
    (hnil : f [] = none)
    (hnomatch : ∀ x, x <:+ a → x ≠ [] → f (x ++ u) = none)
    (hk : f u = some k) :
    scanSub f (a ++ u)
      = (a ++ (scanSub f (u.drop k)).1, u.take k :: (scanSub f (u.drop k)).2) := by
  induction a with
  | nil =>
    cases u with
    | nil => rw [hnil] at hk; exact absurd hk (by simp)
    | cons c r =>
      simpa using scanSub_cons_some hf hk
  | cons c cs ih =>
    have hm : f ((c :: cs) ++ u) = none :=
      hnomatch (c :: cs) (List.suffix_refl _) (by simp)
    rw [List.cons_append, scanSub_cons_none hf (by simpa using hm)]
    have := ih fun x hx hxne => hnomatch x (hx.trans (List.suffix_cons c cs)) hxne
    rw [this]
    simp

theorem takeWhile_all_append {p : Char → Bool} {u : List Char} {d : Char}
    (v : List Char) (hu : ∀ x ∈ u, p x = true) (hd : p d = false) :
    (u ++ d :: v).takeWhile p = u := by
  induction u with
  | nil =>
    rw [List.nil_append]
    exact List.takeWhile_cons_of_neg (l := v) (by simp [hd])
  | cons a t ih =>
    rw [List.cons_append, List.takeWhile_cons_of_pos (hu a (by simp)),
      ih fun x hx => hu x (by simp [hx])]

end DeAiAgent

namespace DeAiAgent

theorem remove_coauthor_eq (text : List Char) :
    remove_coauthor text
      = (finalizeMsg (collapseNl (joinLines
          ((splitLines text).map fun l => if coauthorLineMatches l then [] else l))),
         (splitLines text).filter coauthorLineMatches) := rfl

theorem tryLabels_some_label : ∀ {Ls : List (List Char)} {r : List Char} {n : Nat},
    tryLabels Ls r = some n → ∃ L ∈ Ls, labelRest L r = some n := by
  intro Ls
  induction Ls with
  | nil => intro r n h; simp [tryLabels] at h
  | cons L Ls ih =>
    intro r n h
    unfold tryLabels at h
    cases hl : labelRest L r with
    | some m =>
      rw [hl] at h
      simp only [Option.some.injEq] at h
      exact ⟨L, by simp, h ▸ hl⟩
    | none =>
      rw [hl] at h
      obtain ⟨L2, hL2, h2⟩ := ih h
      exact ⟨L2, by simp [hL2], h2⟩

theorem labelRest_take {L r : List Char} {n : Nat} (h : labelRest L r = some n) :
    ∃ u, n = 1 + L.length + 2 + u.length + 1
      ∧ r.take (L.length + 2 + u.length + 1)
          = r.take L.length ++ ']' :: '(' :: (u ++ [')'])
      ∧ lowerStr (r.take L.length) = lowerStr L := by
  unfold labelRest at h
  split_ifs at h with h1
  rcases hd : r.drop L.length with _ | ⟨b1, _ | ⟨b2, rest3⟩⟩ <;> rw [hd] at h <;>
    dsimp only at h
  · simp at h
  · simp at h
  · split_ifs at h with h2
    obtain ⟨rfl, rfl⟩ := h2
    rcases hd2 : rest3.drop ((rest3.takeWhile (fun c => c ≠ ')')).length)
        with _ | ⟨d, rest4⟩ <;> rw [hd2] at h <;> dsimp only at h
    · simp at h
    · split_ifs at h with h3
      subst h3
      simp only [Option.some.injEq] at h
      refine ⟨rest3.takeWhile (fun c => c ≠ ')'), h.symm, ?_, isPrefixCI_take h1⟩
      have harr : L.length + 2 + (rest3.takeWhile (fun c => c ≠ ')')).length + 1
          = L.length + (2 + ((rest3.takeWhile (fun c => c ≠ ')')).length + 1)) := by
        omega
      rw [harr, List.take_add, hd]
      have h2take : (']' :: '(' :: rest3).take
          (2 + ((rest3.takeWhile (fun c => c ≠ ')')).length + 1))
          = ']' :: '(' :: rest3.take ((rest3.takeWhile (fun c => c ≠ ')')).length + 1) := by
        have : 2 + ((rest3.takeWhile (fun c => c ≠ ')')).length + 1)
            = ((rest3.takeWhile (fun c => c ≠ ')')).length + 1) + 1 + 1 := by omega
        rw [this, List.take_succ_cons, List.take_succ_cons]
      rw [h2take, List.take_add, takeWhile_via_take, hd2]
      simp

/-- C8: for every input text, the output of `sanitize_commit_message` with
default options never contains three or more consecutive newline characters:
every run of three or more newlines is collapsed to two, so at most one
blank line separates content. -/
theorem C8_no_triple_newline (text : List Char) :
    containsSeq "\n\n\n".data (sanitize_commit_message text false false).1 = false := by
  have h1 : (sanitize_commit_message text false false).1
      = (remove_branding (remove_coauthor text).1).1 := by rw [sanitize_default_eq]
  have h2 : (remove_branding (remove_coauthor text).1).1
      = finalizeMsg (collapseNl
          (scanSub linkMatchLen
            (scanSub plainMatchLen
              (scanSub emojiMatchLen (remove_coauthor text).1).1).1).1) := by
    rw [remove_branding_eq]
  rw [h1, h2]
  with_reducible exact noTriple_finalizeMsg (noTriple_collapseNl _)

/-- C5 (amended): whenever at least one removal pass runs (`keep_coauthor`
and `keep_branding` are not both true), the output of
`sanitize_commit_message` is either the empty string or a suffix-trimmed
string terminated by exactly one newline.  (With both keep flags set the
text passes through verbatim, so no normalization happens.) -/
theorem C5_normalized_when_any_pass_runs (text : List Char) (kc kb : Bool)
    (h : kc = false ∨ kb = false) :
    (sanitize_commit_message text kc kb).1 = []
    ∨ ∃ z, (sanitize_commit_message text kc kb).1 = z ++ ['\n'] ∧ z ≠ []
        ∧ rstripPy z = z := by
  have hfin : ∀ w : List Char, finalizeMsg w = []
      ∨ ∃ z, finalizeMsg w = z ++ ['\n'] ∧ z ≠ [] ∧ rstripPy z = z := by
    intro w
    by_cases hw : rstripPy w = []
    · left
      simp [finalizeMsg, hw]
    · right
      exact ⟨rstripPy w, by simp [finalizeMsg, hw], hw, rstripPy_idem w⟩
  cases kc with
  | false =>
    cases kb with
    | false =>
      have h1 : (sanitize_commit_message text false false).1
          = (remove_branding (remove_coauthor text).1).1 := by rw [sanitize_default_eq]
      have h2 : (remove_branding (remove_coauthor text).1).1
          = finalizeMsg (collapseNl
              (scanSub linkMatchLen
                (scanSub plainMatchLen
                  (scanSub emojiMatchLen (remove_coauthor text).1).1).1).1) := by
        rw [remove_branding_eq]
      rw [h1, h2]
      exact hfin _
    | true =>
      have h1 : (sanitize_commit_message text false true).1
          = (remove_coauthor text).1 := rfl
      have h2 : (remove_coauthor text).1
          = finalizeMsg (collapseNl (joinLines
              ((splitLines text).map fun l =>
                if coauthorLineMatches l then [] else l))) := by
        rw [remove_coauthor_eq]
      rw [h1, h2]
      exact hfin _
  | true =>
    cases kb with
    | false =>
      have h1 : (sanitize_commit_message text true false).1
          = (remove_branding text).1 := rfl
      have h2 : (remove_branding text).1
          = finalizeMsg (collapseNl
              (scanSub linkMatchLen
                (scanSub plainMatchLen (scanSub emojiMatchLen text).1).1).1) := by
        rw [remove_branding_eq]
      rw [h1, h2]
      exact hfin _
    | true =>
      rcases h with h | h <;> simp at h

/-- C5 witness: the amended statement at the concrete input `"a"` with both
passes enabled. -/
theorem C5_normalized_witness :
    (sanitize_commit_message "a".data false false).1 = []
    ∨ ∃ z, (sanitize_commit_message "a".data false false).1 = z ++ ['\n'] ∧ z ≠ []
        ∧ rstripPy z = z :=
  C5_normalized_when_any_pass_runs "a".data false false (Or.inl rfl)

/-- C3 (amended): the markdown-link sub-pattern only ever matches and records
link constructs whose label is case-insensitively one of the recognized AI
names; a markdown link with any other label is never matched or individually
recorded by the link pass (it can still be deleted as part of a greedy
emoji/plain `Generated with` span on the same line). -/
theorem C3_link_pass_only_ai_labels (text m : List Char)
    (hm : m ∈ (scanSub linkMatchLen text).2) :
    ∃ lab url, m = '[' :: (lab ++ ']' :: '(' :: (url ++ [')']))
      ∧ ∃ L ∈ linkLabels, lowerStr lab = lowerStr L := by
  obtain ⟨t, k, ht, hfk, rfl⟩ := scanSub_mem_rec text linkMatchLen_pos m hm
  obtain ⟨r, rfl⟩ := linkMatchLen_some_head hfk
  have htl : tryLabels linkLabels r = some k := by
    unfold linkMatchLen at hfk
    dsimp only at hfk
    simpa using hfk
  obtain ⟨L, hL, hlr⟩ := tryLabels_some_label htl
  obtain ⟨u, hn, htake, hlab⟩ := labelRest_take hlr
  refine ⟨r.take L.length, u, ?_, L, hL, hlab⟩
  subst hn
  have harr : 1 + L.length + 2 + u.length + 1
      = (L.length + 2 + u.length + 1) + 1 := by omega
  rw [harr, List.take_succ_cons, htake]

/-- C3 witness: the link `[AI](u)` is recorded by the link pass and has the
required shape. -/
theorem C3_link_pass_witness :
    "[AI](u)".data ∈ (scanSub linkMatchLen "[AI](u)".data).2
    ∧ ∃ lab url, "[AI](u)".data = '[' :: (lab ++ ']' :: '(' :: (url ++ [')']))
        ∧ ∃ L ∈ linkLabels, lowerStr lab = lowerStr L :=
  ⟨by decide, C3_link_pass_only_ai_labels "[AI](u)".data "[AI](u)".data (by decide)⟩

end DeAiAgent

namespace DeAiAgent

theorem isPrefixCI_trunc {p l X : List Char}
    (h : isPrefixCI p (l ++ X) = true) :
    isPrefixCI (p.take l.length) l = true := by
  induction l generalizing p with
  | nil => rfl
  | cons c ls ih =>
    cases p with
    | nil => rfl
    | cons q qs =>
      simp only [List.cons_append, isPrefixCI, Bool.and_eq_true] at h
      simp only [List.length_cons, List.take_succ_cons, isPrefixCI, Bool.and_eq_true]
      exact ⟨h.1, ih h.2⟩

/-- C9: the branding tool tokens are matched as bare substrings: a line with
`Generated with` followed later (on the same line) by the two-letter
substring `ai` in any case — even inside an ordinary word such as
`maintainers` — is deleted by `remove_branding` from the `Generated with`
marker through the end of the line, and the deleted span is recorded in the
branding list, even though the line names no AI tool.  Here `a` is the text
before the first `Generated with`, `g` the marker, and `b`, `t`, `c` split
the rest of the line around the `ai` substring; the hypotheses say the text
is a single line without emoji markers and that no earlier position
case-insensitively starts `generated with`. -/
theorem C9_bare_ai_substring (a g b t c : List Char)
    (hg : lowerStr g = lowerStr genWithLit)
    (ht : lowerStr t = lowerStr "ai".data)
    (hnl : '\n' ∉ a ++ (g ++ (b ++ (t ++ c))))
    (hemoji : ∀ e ∈ emojiMarkers, e ∉ a ++ (g ++ (b ++ (t ++ c))))
    (hfirst : ∀ x ∈ a.tails, x ≠ [] →
      isPrefixCI genWithLit (x ++ (g ++ (b ++ (t ++ c)))) = false) :
    (remove_branding (a ++ (g ++ (b ++ (t ++ c))))).1 = (remove_branding a).1
    ∧ (g ++ (b ++ (t ++ c))) ∈ (remove_branding (a ++ (g ++ (b ++ (t ++ c))))).2 := by
  set u := g ++ (b ++ (t ++ c)) with hu
  have hglen : g.length = genWithLit.length := by
    have := congrArg List.length hg
    simpa [lowerStr_length] using this
  have hdropu : u.drop genWithLit.length = b ++ (t ++ c) := by
    rw [hu, ← hglen]
    exact List.drop_left g _
  have hnlu : '\n' ∉ b ++ (t ++ c) := by
    intro hmem
    exact hnl (by simp [hu, hmem])
  have hk : plainMatchLen u = some u.length := by
    rw [plainMatchLen_eq_some]
    refine ⟨by rw [hu]; exact isPrefixCI_of_lower hg _, ?_, ?_⟩
    · rw [hdropu, takeLine_of_no_nl hnlu]
      simp only [occursAnyCI, List.any_eq_true]
      refine ⟨"ai".data, by decide, ?_⟩
      exact occursCI_iff.mpr ⟨t ++ c, ⟨b, rfl⟩, isPrefixCI_of_lower ht c⟩
    · rw [hdropu, takeLine_of_no_nl hnlu]
      have : u.length = g.length + (b ++ (t ++ c)).length := by simp [hu]
      omega
  have hnomatch : ∀ x, x <:+ a → x ≠ [] → plainMatchLen (x ++ u) = none := by
    intro x hx hxne
    cases hm : plainMatchLen (x ++ u) with
    | none => rfl
    | some k2 =>
      obtain ⟨hp, -, -⟩ := plainMatchLen_eq_some.mp hm
      have hfx := hfirst x ((List.mem_tails _ _).mpr hx) hxne
      rw [hu] at hfx
      simp [hfx] at hp
  have hscanp : scanSub plainMatchLen (a ++ u) = (a, [u]) := by
    rw [scanSub_append_first plainMatchLen_pos plainMatchLen_nil hnomatch hk]
    simp [scanSub, scanAux]
  have hscanp_a : scanSub plainMatchLen a = (a, []) := by
    apply scanSub_id plainMatchLen_pos
    intro x hx
    cases x with
    | nil => exact plainMatchLen_nil
    | cons c0 r0 =>
      cases hm : plainMatchLen (c0 :: r0) with
      | none => rfl
      | some k2 =>
        obtain ⟨hp, -, -⟩ := plainMatchLen_eq_some.mp hm
        have hpa : isPrefixCI genWithLit ((c0 :: r0) ++ u) = true := isPrefixCI_append hp
        have hfx := hfirst (c0 :: r0) ((List.mem_tails _ _).mpr hx) (by simp)
        simp only [List.cons_append] at hfx hpa
        simp [hfx] at hpa
  have hemoji_l : scanSub emojiMatchLen (a ++ u) = (a ++ u, []) := emoji_scan_id hemoji
  have hemoji_a : scanSub emojiMatchLen a = (a, []) :=
    emoji_scan_id fun e he hmem => hemoji e he (by simp [hmem])
  constructor
  · rw [remove_branding_eq, remove_branding_eq, hemoji_l, hemoji_a]
    dsimp only
    rw [hscanp, hscanp_a]
  · rw [remove_branding_eq, hemoji_l]
    dsimp only
    rw [hscanp]
    simp

/-- C9 witness: the line `Generated with love by the maintainers` names no
AI tool, yet its `ai` inside `maintainers` triggers removal and recording of
the whole span. -/
theorem C9_bare_ai_witness :
    (remove_branding ("Generated with".data
        ++ (" love by the m".data ++ ("ai".data ++ "ntainers".data)))).1
      = (remove_branding []).1
    ∧ ("Generated with".data
        ++ (" love by the m".data ++ ("ai".data ++ "ntainers".data)))
      ∈ (remove_branding ([] ++ ("Generated with".data
          ++ (" love by the m".data ++ ("ai".data ++ "ntainers".data))))).2 := by
  have h := C9_bare_ai_substring [] "Generated with".data " love by the m".data
    "ai".data "ntainers".data (by decide) (by decide) (by decide) (by decide)
    (by decide)
  exact ⟨h.1, h.2⟩

end DeAiAgent

namespace DeAiAgent

/-- C10: markdown-link removal stops at the first closing parenthesis.  For a
link `[Claude](` ++ u ++ `)` ++ v where the URL part `u` contains no `)`,
`remove_branding` removes exactly the text from `[` through the first `)`
and leaves `v` (for example the residue `c)` of
`[Claude](https://x.com/a(b)c)`) to be processed as ordinary text; the
removed span is recorded as the sole branding entry.  The side hypotheses
keep the emoji, plain and further link patterns out of the picture. -/
theorem C10_link_stops_first_paren (u v : List Char)
    (hu_paren : ')' ∉ u) (hu_brack : '[' ∉ u) (hv_brack : '[' ∉ v)
    (hgen : occursCI genWithLit ("[Claude](".data ++ (u ++ ')' :: v)) = false)
    (hemoji : ∀ e ∈ emojiMarkers, e ∉ "[Claude](".data ++ (u ++ ')' :: v)) :
    (remove_branding ("[Claude](".data ++ (u ++ ')' :: v))).1
      = (remove_branding v).1
    ∧ (remove_branding ("[Claude](".data ++ (u ++ ')' :: v))).2
      = ["[Claude](".data ++ (u ++ [')'])] := by
  have h0 : "[Claude](".data = '[' :: "Claude](".data := by decide
  have hTcons : "[Claude](".data ++ (u ++ ')' :: v)
      = '[' :: ("Claude](".data ++ (u ++ ')' :: v)) := by
    rw [h0]
    rfl
  have hCC : labelRest "claude code".data ("Claude](".data ++ (u ++ ')' :: v)) = none := by
    have hpre : isPrefixCI "claude code".data ("Claude](".data ++ (u ++ ')' :: v)) = false := by
      by_contra hcon
      rw [Bool.not_eq_false] at hcon
      have := isPrefixCI_trunc hcon
      rw [show ("Claude](".data).length = 8 from by decide] at this
      exact absurd this (by decide)
    unfold labelRest
    rw [hpre]
    simp
  have hdrop6 : ("Claude](".data ++ (u ++ ')' :: v)).drop ("claude".data).length
      = ']' :: '(' :: (u ++ ')' :: v) := by
    rw [show ("claude".data).length = 6 from by decide,
      List.drop_append_of_le_length (by decide)]
    rfl
  have htw : (u ++ ')' :: v).takeWhile (fun c => c ≠ ')') = u := by
    apply takeWhile_all_append
    · intro x hx
      simp only [decide_eq_true_eq]
      intro hxc
      exact hu_paren (hxc ▸ hx)
    · simp
  have hCl : labelRest "claude".data ("Claude](".data ++ (u ++ ')' :: v))
      = some (1 + ("claude".data).length + 2 + u.length + 1) := by
    unfold labelRest
    rw [if_pos (isPrefixCI_append (by decide : isPrefixCI "claude".data "Claude](".data = true))]
    rw [hdrop6]
    dsimp only
    rw [if_pos ⟨rfl, rfl⟩]
    rw [htw, List.drop_left]
    dsimp only
    rw [if_pos rfl]
  have htry : tryLabels linkLabels ("Claude](".data ++ (u ++ ')' :: v))
      = some (1 + ("claude".data).length + 2 + u.length + 1) := by
    rw [show linkLabels = "claude code".data :: "claude".data :: ("copilot".data
      :: "ai".data :: "cline".data :: "cursor".data :: "aider".data :: []) from by decide]
    unfold tryLabels
    rw [hCC]
    dsimp only
    unfold tryLabels
    rw [hCl]
  have hlink : linkMatchLen ("[Claude](".data ++ (u ++ ')' :: v))
      = some (u.length + 10) := by
    rw [hTcons]
    unfold linkMatchLen
    dsimp only
    rw [if_pos rfl, htry, show ("claude".data).length = 6 from by decide]
    congr 1
    omega
  have h8 : u.length + 9 = ("Claude](".data).length + (u.length + 1) := by
    rw [show ("Claude](".data).length = 8 from by decide]
    omega
  have hdropn : ("[Claude](".data ++ (u ++ ')' :: v)).drop (u.length + 10) = v := by
    rw [hTcons, show u.length + 10 = (u.length + 9) + 1 from by omega,
      List.drop_succ_cons, h8, List.drop_append, List.drop_append]
    rfl
  have htaken : ("[Claude](".data ++ (u ++ ')' :: v)).take (u.length + 10)
      = "[Claude](".data ++ (u ++ [')']) := by
    rw [hTcons, show u.length + 10 = (u.length + 9) + 1 from by omega,
      List.take_succ_cons, h8, List.take_append, List.take_append]
    rw [h0]
    rfl
  have hlink' : linkMatchLen ('[' :: ("Claude](".data ++ (u ++ ')' :: v)))
      = some (u.length + 10) := hTcons ▸ hlink
  have hscanv : scanSub linkMatchLen v = (v, []) := link_scan_id_of_no_bracket hv_brack
  have hscanT : scanSub linkMatchLen ("[Claude](".data ++ (u ++ ')' :: v))
      = (v, ["[Claude](".data ++ (u ++ [')'])]) := by
    rw [hTcons, scanSub_cons_some linkMatchLen_pos hlink']
    rw [← hTcons, hdropn, htaken, hscanv]
  have hplainT : scanSub plainMatchLen ("[Claude](".data ++ (u ++ ')' :: v))
      = ("[Claude](".data ++ (u ++ ')' :: v), []) := plain_scan_id_of_no_genwith hgen
  have hemojiT : scanSub emojiMatchLen ("[Claude](".data ++ (u ++ ')' :: v))
      = ("[Claude](".data ++ (u ++ ')' :: v), []) := emoji_scan_id hemoji
  have hsuffv : v <:+ "[Claude](".data ++ (u ++ ')' :: v) := by
    refine ⟨"[Claude](".data ++ (u ++ [')']), ?_⟩
    simp
  have hgenv : occursCI genWithLit v = false := by
    by_contra hcon
    rw [Bool.not_eq_false] at hcon
    have h2 := occursCI_of_suffix hsuffv hcon
    rw [hgen] at h2
    exact Bool.false_ne_true h2
  have hplainv : scanSub plainMatchLen v = (v, []) := plain_scan_id_of_no_genwith hgenv
  have hemojiv : scanSub emojiMatchLen v = (v, []) :=
    emoji_scan_id fun e he hm => hemoji e he (hsuffv.subset hm)
  constructor
  · rw [remove_branding_eq, remove_branding_eq, hemojiT, hemojiv]
    dsimp only
    rw [hplainT, hplainv]
    dsimp only
    rw [hscanT, hscanv]
  · rw [remove_branding_eq, hemojiT]
    dsimp only
    rw [hplainT]
    dsimp only
    rw [hscanT]
    simp

/-- C10 witness: `[Claude](https://x.com/a(b)c)` loses only
`[Claude](https://x.com/a(b)` and leaves the residue `c)`. -/
theorem C10_link_stops_witness :
    (remove_branding ("[Claude](".data ++ ("https://x.com/a(b".data ++ ')' :: "c".data))).1
      = (remove_branding "c".data).1
    ∧ (remove_branding ("[Claude](".data
        ++ ("https://x.com/a(b".data ++ ')' :: "c".data))).2
      = ["[Claude](".data ++ ("https://x.com/a(b".data ++ [')'])] :=
  C10_link_stops_first_paren "https://x.com/a(b".data "c".data
    (by decide) (by decide) (by decide) (by decide) (by decide)

end DeAiAgent

namespace DeAiAgent

/-! ## Occurrences and line structure -/

theorem takeLine_prefix (s : List Char) : takeLine s <+: s :=
  ⟨dropLine s, List.takeWhile_append_dropWhile _ _⟩

theorem occursCI_nil_of_ne {p : List Char} (hp : p ≠ []) : occursCI p [] = false := by
  cases p with
  | nil => exact absurd rfl hp
  | cons a ps => rfl

theorem occursCI_cons_of_tail {p : List Char} {c : Char} {r : List Char}
    (h : occursCI p r = true) : occursCI p (c :: r) = true := by
  simp only [occursCI, Bool.or_eq_true]
  exact Or.inr h

/-- A case-insensitive occurrence of a newline-free pattern cannot straddle a
newline: it lies entirely in one side. -/
theorem occursCI_split {p x y : List Char} (hp : p ≠ [])
    (hnl : ∀ a ∈ p, lowerChar a ≠ '\n')
    (h : occursCI p (x ++ '\n' :: y) = true) :
    occursCI p x = true ∨ occursCI p y = true := by
  induction x with
  | nil =>
    simp only [List.nil_append, occursCI, Bool.or_eq_true] at h
    rcases h with h | h
    · cases p with
      | nil => exact absurd rfl hp
      | cons a ps =>
        simp only [isPrefixCI, Bool.and_eq_true, beq_iff_eq] at h
        exact absurd (h.1.symm ▸ lowerChar_nl) (hnl a (by simp))
    · exact Or.inr h
  | cons c cs ih =>
    simp only [List.cons_append, occursCI, Bool.or_eq_true] at h
    rcases h with h | h
    · left
      have h1 : isPrefixCI p (takeLine (c :: (cs ++ '\n' :: y))) = true :=
        isPrefixCI_takeLine hnl h
      have h2 : takeLine (c :: (cs ++ '\n' :: y)) = takeLine (c :: cs) := by
        rw [show c :: (cs ++ '\n' :: y) = (c :: cs) ++ '\n' :: y from rfl,
          takeLine_append_nl]
      rw [h2] at h1
      have h3 : isPrefixCI p (c :: cs) = true :=
        isPrefixCI_of_prefix ( takeLine_prefix (c :: cs)) h1
      simp only [occursCI, Bool.or_eq_true]
      exact Or.inl h3
    · rcases ih h with h1 | h1
      · exact Or.inl (occursCI_cons_of_tail h1)
      · exact Or.inr h1

theorem occursCI_joinLines {p : List Char} (hp : p ≠ [])
    (hnl : ∀ a ∈ p, lowerChar a ≠ '\n') :
    ∀ {L : List (List Char)}, occursCI p (joinLines L) = true →
      ∃ l ∈ L, occursCI p l = true := by
  intro L
  induction L with
  | nil =>
    intro h
    rw [show joinLines [] = [] from rfl, occursCI_nil_of_ne hp] at h
    exact absurd h (by simp)
  | cons l ls ih =>
    intro h
    cases ls with
    | nil =>
      rw [show joinLines [l] = l from rfl] at h
      exact ⟨l, by simp, h⟩
    | cons m ms =>
      rw [show joinLines (l :: m :: ms) = l ++ '\n' :: joinLines (m :: ms) from rfl] at h
      rcases occursCI_split hp hnl h with h1 | h1
      · exact ⟨l, by simp, h1⟩
      · obtain ⟨l2, hl2, h2⟩ := ih h1
        exact ⟨l2, by simp [hl2], h2⟩

theorem infix_of_mem_splitLines : ∀ {s : List Char} {l : List Char},
    l ∈ splitLines s → List.IsInfix l s := by
  intro s
  induction s with
  | nil =>
    intro l hl
    simp only [splitLines, List.mem_singleton] at hl
    simp [hl]
  | cons c r ih =>
    intro l hl
    by_cases hc : c = '\n'
    · subst hc
      simp only [splitLines, if_true, reduceIte] at hl
      rcases List.mem_cons.mp hl with rfl | hl'
      · exact List.nil_infix
      · exact (ih hl').trans (List.infix_cons (List.infix_refl r))
    · rw [splitLines_cons_of_ne c r hc] at hl
      rcases List.mem_cons.mp hl with rfl | hl'
      · have hpre : c :: (splitLines r).headI <+: c :: r := by
          rw [headI_splitLines]
          obtain ⟨e, he⟩ := takeLine_prefix r
          exact ⟨e, by rw [List.cons_append, he]⟩
        exact hpre.isInfix
      · have hmem : l ∈ splitLines r := by
          cases hsp : splitLines r with
          | nil => exact absurd hsp (splitLines_ne_nil r)
          | cons x xs =>
            rw [hsp] at hl'
            exact List.mem_cons_of_mem x hl'
        exact (ih hmem).trans (List.infix_cons (List.infix_refl r))

theorem occursCI_of_infix {p l s : List Char} (hin : List.IsInfix l s)
    (h : occursCI p l = true) : occursCI p s = true := by
  obtain ⟨pre, post, hps⟩ := hin
  rw [← hps, List.append_assoc]
  exact occursCI_of_suffix ⟨pre, rfl⟩ (occursCI_append_left h)

/-- A case-insensitive occurrence of a nonempty newline-free pattern lies
within a single line. -/
theorem occursCI_in_line {p : List Char} (hp : p ≠ [])
    (hnl : ∀ a ∈ p, lowerChar a ≠ '\n') :
    ∀ {s : List Char}, occursCI p s = true →
      ∃ l ∈ splitLines s, occursCI p l = true := by
  intro s
  induction s with
  | nil =>
    intro h
    rw [occursCI_nil_of_ne hp] at h
    exact absurd h (by simp)
  | cons c r ih =>
    intro h
    simp only [occursCI, Bool.or_eq_true] at h
    rcases h with h | h
    · have h1 : isPrefixCI p (takeLine (c :: r)) = true := isPrefixCI_takeLine hnl h
      refine ⟨takeLine (c :: r), ?_, occursCI_of_isPrefixCI h1⟩
      rw [← headI_splitLines]
      cases hsp : splitLines (c :: r) with
      | nil => exact absurd hsp (splitLines_ne_nil _)
      | cons x xs => simp
    · obtain ⟨l, hl, h1⟩ := ih h
      by_cases hc : c = '\n'
      · subst hc
        refine ⟨l, ?_, h1⟩
        simp only [splitLines, if_true, reduceIte]
        exact List.mem_cons_of_mem _ hl
      · rw [splitLines_cons_of_ne c r hc]
        cases hsp : splitLines r with
        | nil => exact absurd hsp (splitLines_ne_nil r)
        | cons x xs =>
          rw [hsp] at hl
          rcases List.mem_cons.mp hl with rfl | hl'
          · exact ⟨c :: l, by simp, occursCI_cons_of_tail h1⟩
          · exact ⟨l, by simp [hl'], h1⟩

theorem occursCI_collapseNl {p s : List Char} (hp : p ≠ [])
    (hnl : ∀ a ∈ p, lowerChar a ≠ '\n')
    (h : occursCI p (collapseNl s) = true) : occursCI p s = true := by
  obtain ⟨l, hl, hocc⟩ := occursCI_in_line hp hnl h
  have hlne : l ≠ [] := by
    intro hnil
    rw [hnil, occursCI_nil_of_ne hp] at hocc
    exact absurd hocc (by simp)
  have hmem : l ∈ nonNlRuns (collapseNl s) := by
    simp [nonNlRuns, List.mem_filter, hl, hlne]
  rw [nonNlRuns_collapseNl] at hmem
  have : l ∈ splitLines s := by
    simp only [nonNlRuns, List.mem_filter] at hmem
    exact hmem.1
  exact occursCI_of_infix (infix_of_mem_splitLines this) hocc

/-! ## Character membership through the pipeline -/

theorem mem_joinLines {x : Char} : ∀ {L : List (List Char)},
    x ∈ joinLines L → (∃ l ∈ L, x ∈ l) ∨ x = '\n' := by
  intro L
  induction L with
  | nil => intro h; simp [joinLines] at h
  | cons l ls ih =>
    intro h
    cases ls with
    | nil =>
      rw [show joinLines [l] = l from rfl] at h
      exact Or.inl ⟨l, by simp, h⟩
    | cons m ms =>
      rw [show joinLines (l :: m :: ms) = l ++ '\n' :: joinLines (m :: ms) from rfl] at h
      rcases List.mem_append.mp h with h1 | h1
      · exact Or.inl ⟨l, by simp, h1⟩
      · rcases List.mem_cons.mp h1 with rfl | h2
        · exact Or.inr rfl
        · rcases ih h2 with ⟨l2, hl2, h3⟩ | h3
          · exact Or.inl ⟨l2, by simp [hl2], h3⟩
          · exact Or.inr h3

theorem mem_finalizeMsg {x : Char} {s : List Char} (h : x ∈ finalizeMsg s) :
    x ∈ s ∨ x = '\n' := by
  rw [finalizeMsg] at h
  split_ifs at h with hs
  · simp at h
  · rcases List.mem_append.mp h with h1 | h1
    · exact Or.inl (( rstripPy_prefix s).subset h1)
    · exact Or.inr (by simpa using h1)

/-! ## Non-newline runs through finalize -/

theorem nonNlRuns_append_nl (x : List Char) :
    nonNlRuns (x ++ ['\n']) = nonNlRuns x := by
  have : x ++ ['\n'] = x ++ '\n' :: [] := rfl
  rw [this, nonNlRuns, splitLines_append_nl, List.filter_append]
  simp [splitLines, nonNlRuns]

theorem nonNlRuns_rstripPy : ∀ (w : List Char),
    (hws : ∀ l ∈ nonNlRuns w, ∀ c, l.getLast? = some c → isPySpace c = false) →
    nonNlRuns (rstripPy w) = nonNlRuns w := by
  intro w
  induction w using List.reverseRecOn with
  | nil => intro _; rfl
  | append_singleton ys x ih =>
    intro hws
    by_cases hx : isPySpace x = true
    · by_cases hxn : x = '\n'
      · subst hxn
        rw [rstripPy_append_nl, nonNlRuns_append_nl]
        apply ih
        intro l hl c hc
        exact hws l (by rwa [nonNlRuns_append_nl]) c hc
      · exfalso
        obtain ⟨g, h1, h2⟩ := splitLines_append_struc ys [x]
        rw [splitLines_of_no_nl (l := [x])
          (by simp only [List.mem_singleton]; exact fun hh => hxn hh.symm)] at h2
        simp only [List.headI, List.tail_cons] at h2
        have hline : g ++ [x] ∈ splitLines (ys ++ [x]) := by
          rw [h2]
          simp
        have hmem : g ++ [x] ∈ nonNlRuns (ys ++ [x]) := by
          simp [nonNlRuns, List.mem_filter, hline]
        have := hws _ hmem x (by simp)
        rw [hx] at this
        exact Bool.noConfusion this
    · have heq : rstripPy (ys ++ [x]) = ys ++ [x] := by
        apply rstripPy_eq_self
        intro c hc
        rw [List.getLast?_concat] at hc
        simp only [Option.some.injEq] at hc
        exact Bool.eq_false_iff.mpr (hc ▸ hx)
      rw [heq]

theorem nonNlRuns_finalizeMsg {w : List Char}
    (hws : ∀ l ∈ nonNlRuns w, ∀ c, l.getLast? = some c → isPySpace c = false) :
    nonNlRuns (finalizeMsg w) = nonNlRuns w := by
  rw [finalizeMsg]
  split_ifs with hs
  · rw [← nonNlRuns_rstripPy w hws, hs]
  · rw [nonNlRuns_append_nl, nonNlRuns_rstripPy w hws]

theorem nonNlRuns_joinLines {L : List (List Char)} (hne : L ≠ [])
    (hnl : ∀ l ∈ L, '\n' ∉ l) :
    nonNlRuns (joinLines L) = L.filter (fun l => l ≠ []) := by
  rw [nonNlRuns, splitLines_joinLines hne hnl]

end DeAiAgent

namespace DeAiAgent

/-! ## The co-author pass output is inert for the branding pass -/

theorem occursCI_finalizeMsg {p s : List Char} (hp : p ≠ [])
    (hnl : ∀ a ∈ p, lowerChar a ≠ '\n')
    (h : occursCI p (finalizeMsg s) = true) : occursCI p s = true := by
  rw [finalizeMsg] at h
  split_ifs at h with hz
  · rw [occursCI_nil_of_ne hp] at h
    exact absurd h (by simp)
  · have he : rstripPy s ++ ['\n'] = rstripPy s ++ '\n' :: [] := rfl
    rw [he] at h
    rcases occursCI_split hp hnl h with h1 | h1
    · exact occursCI_of_infix ( rstripPy_prefix s).isInfix h1
    · rw [occursCI_nil_of_ne hp] at h1
      exact absurd h1 (by simp)

theorem mem_remove_coauthor_out {x : Char} {text : List Char}
    (h : x ∈ (remove_coauthor text).1) :
    x = '\n' ∨ ∃ l ∈ splitLines text, coauthorLineMatches l = false ∧ x ∈ l := by
  have hco1 : (remove_coauthor text).1
      = finalizeMsg (collapseNl (joinLines
          ((splitLines text).map fun l => if coauthorLineMatches l then [] else l))) := by
    rw [remove_coauthor_eq]
  rw [hco1] at h
  rcases mem_finalizeMsg h with h1 | h1
  · rcases mem_collapseNl h1 with h2 | h2
    · exact Or.inl h2
    · rcases mem_joinLines h2 with ⟨l, hl, hx⟩ | h3
      · obtain ⟨li, hli, hfl⟩ := List.mem_map.mp hl
        by_cases hm : coauthorLineMatches li = true
        · rw [if_pos hm] at hfl
          rw [← hfl] at hx
          simp at hx
        · rw [if_neg hm] at hfl
          exact Or.inr ⟨li, hli, by simpa using hm, hfl ▸ hx⟩
      · exact Or.inl h3
  · exact Or.inl h1

theorem occursCI_remove_coauthor_out {p : List Char} {text : List Char}
    (hp : p ≠ []) (hnl : ∀ a ∈ p, lowerChar a ≠ '\n')
    (h : occursCI p (remove_coauthor text).1 = true) :
    ∃ l ∈ splitLines text, coauthorLineMatches l = false ∧ occursCI p l = true := by
  have hco1 : (remove_coauthor text).1
      = finalizeMsg (collapseNl (joinLines
          ((splitLines text).map fun l => if coauthorLineMatches l then [] else l))) := by
    rw [remove_coauthor_eq]
  rw [hco1] at h
  have h1 := occursCI_collapseNl hp hnl (occursCI_finalizeMsg hp hnl h)
  obtain ⟨l, hl, hocc⟩ := occursCI_joinLines hp hnl h1
  obtain ⟨li, hli, hfl⟩ := List.mem_map.mp hl
  by_cases hm : coauthorLineMatches li = true
  · rw [if_pos hm] at hfl
    rw [← hfl, occursCI_nil_of_ne hp] at hocc
    exact absurd hocc (by simp)
  · rw [if_neg hm] at hfl
    exact ⟨li, hli, by simpa using hm, hfl ▸ hocc⟩

/-- If none of the three branding matchers can fire on `y` and `y` is already
collapse- and finalize-stable, `remove_branding` is the identity with an empty
record. -/
theorem remove_branding_id {y : List Char}
    (hemoji : ∀ e ∈ emojiMarkers, e ∉ y)
    (hgen : occursCI genWithLit y = false)
    (hbr : '[' ∉ y)
    (hnt : containsSeq "\n\n\n".data y = false)
    (hfin : finalizeMsg y = y) :
    remove_branding y = (y, []) := by
  have h1 : scanSub emojiMatchLen y = (y, []) := emoji_scan_id hemoji
  have h2 : scanSub plainMatchLen y = (y, []) := plain_scan_id_of_no_genwith hgen
  have h3 : scanSub linkMatchLen y = (y, []) := link_scan_id_of_no_bracket hbr
  rw [remove_branding_eq]
  simp only [h1, h2, h3]
  rw [collapseNl_fix hnt, hfin]
  rfl

theorem remove_branding_clean_co {text : List Char}
    (hemoji : ∀ e ∈ emojiMarkers, ∀ l ∈ splitLines text,
      coauthorLineMatches l = false → e ∉ l)
    (hgen : ∀ l ∈ splitLines text,
      coauthorLineMatches l = false → occursCI genWithLit l = false)
    (hbr : ∀ l ∈ splitLines text, coauthorLineMatches l = false → '[' ∉ l) :
    remove_branding (remove_coauthor text).1 = ((remove_coauthor text).1, []) := by
  have hco1 : (remove_coauthor text).1
      = finalizeMsg (collapseNl (joinLines
          ((splitLines text).map fun l => if coauthorLineMatches l then [] else l))) := by
    rw [remove_coauthor_eq]
  apply remove_branding_id
  · intro e he hin
    rcases mem_remove_coauthor_out hin with h1 | ⟨l, hl, hm, hx⟩
    · rw [h1] at he
      exact absurd he (by decide)
    · exact absurd hx (hemoji e he l hl hm)
  · by_contra hcon
    rw [Bool.not_eq_false] at hcon
    obtain ⟨l, hl, hm, hocc⟩ := occursCI_remove_coauthor_out (by decide) (by decide) hcon
    rw [hgen l hl hm] at hocc
    exact Bool.noConfusion hocc
  · intro hin
    rcases mem_remove_coauthor_out hin with h1 | ⟨l, hl, hm, hx⟩
    · exact absurd h1 (by decide)
    · exact absurd hx (hbr l hl hm)
  · rw [hco1]
    exact noTriple_finalizeMsg (noTriple_collapseNl _)
  · rw [hco1]
    exact finalizeMsg_idem _

theorem filter_mask_lines : ∀ (L : List (List Char)),
    (∀ l ∈ L, coauthorLineMatches l = true ∨ l ≠ []) →
    ((L.map fun l => if coauthorLineMatches l then [] else l).filter fun l => l ≠ [])
      = L.filter (fun l => !coauthorLineMatches l) := by
  intro L
  induction L with
  | nil => intro _; rfl
  | cons l ls ih =>
    intro h
    have htail := ih fun x hx => h x (by simp [hx])
    by_cases hm : coauthorLineMatches l = true
    · simp [hm]
      simpa using htail
    · have hm' : coauthorLineMatches l = false := by simpa using hm
      have hlne : l ≠ [] := (h l (by simp)).resolve_left (by simp [hm'])
      simp [hm', hlne]
      simpa using htail

end DeAiAgent

namespace DeAiAgent

/-! ## Line structure of a scan's output

For a matcher that never fires on a line break and whose matches always end
at a line break (or at the end of the text), the scan keeps an initial
prefix of every line it does not consume entirely: the first output line is
a prefix of the first input line and the remaining output lines align
order-preservingly onto the remaining input lines. -/

theorem linesRel_nil_left : ∀ (T : List (List Char)), LinesRel [] T
  | [] => LinesRel.nil
  | _ :: T => LinesRel.skip (linesRel_nil_left T)

theorem linesRel_append_skip {L T : List (List Char)} (h : LinesRel L T) :
    ∀ (P : List (List Char)), LinesRel L (P ++ T)
  | [] => h
  | _ :: P => LinesRel.skip (linesRel_append_skip h P)

theorem linesRel_mem {L T : List (List Char)} (h : LinesRel L T) :
    ∀ l ∈ L, ∃ m ∈ T, l <+: m := by
  induction h with
  | nil => intro l hl; simp at hl
  | cons hab hrel ih =>
    intro l hl
    rcases List.mem_cons.mp hl with rfl | hl2
    · exact ⟨_, by simp, hab⟩
    · obtain ⟨m, hm, hp⟩ := ih l hl2
      exact ⟨m, by simp [hm], hp⟩
  | skip hrel ih =>
    intro l hl
    obtain ⟨m, hm, hp⟩ := ih l hl
    exact ⟨m, by simp [hm], hp⟩

theorem splitLines_nl_cons (x : List Char) :
    splitLines ('\n' :: x) = [] :: splitLines x := by
  simp [splitLines]

theorem scan_lines_struct (f : List Char → Option Nat)
    (hpos : ∀ s k, f s = some k → 0 < k)
    (hrest : ∀ s k, f s = some k → s.drop k = [] ∨ ∃ r, s.drop k = '\n' :: r)
    (hnlnone : ∀ r, f ('\n' :: r) = none) :
    ∀ (s : List Char),
      (splitLines (scanSub f s).1).headI <+: (splitLines s).headI
      ∧ LinesRel (splitLines (scanSub f s).1).tail (splitLines s).tail := by
  suffices H : ∀ n (s : List Char), s.length ≤ n →
      (splitLines (scanSub f s).1).headI <+: (splitLines s).headI
      ∧ LinesRel (splitLines (scanSub f s).1).tail (splitLines s).tail by
    exact fun s => H s.length s (Nat.le_refl _)
  intro n
  induction n using Nat.strong_induction_on with
  | _ n ih =>
    intro s hs
    cases s with
    | nil =>
      have h0 : scanSub f [] = ([], []) := rfl
      rw [h0]
      exact ⟨List.prefix_refl _, LinesRel.nil⟩
    | cons c r =>
      have hn1 : 1 ≤ n := le_trans (by simp) hs
      simp only [List.length_cons] at hs
      cases hm : f (c :: r) with
      | none =>
        have hout : (scanSub f (c :: r)).1 = c :: (scanSub f r).1 := by
          rw [scanSub_cons_none hpos hm]
        obtain ⟨h1, h2⟩ := ih (n - 1) (by omega) r (by omega)
        by_cases hc : c = '\n'
        · subst hc
          rw [hout, splitLines_nl_cons, splitLines_nl_cons]
          refine ⟨List.prefix_refl _, ?_⟩
          simp only [List.tail_cons]
          cases ho : splitLines (scanSub f r).1 with
          | nil => exact absurd ho (splitLines_ne_nil _)
          | cons a L =>
            cases hi : splitLines r with
            | nil => exact absurd hi (splitLines_ne_nil _)
            | cons b T =>
              rw [ho, hi] at h1 h2
              simp only [List.headI, List.tail_cons] at h1 h2
              exact LinesRel.cons h1 h2
        · rw [hout, splitLines_cons_of_ne c _ hc, splitLines_cons_of_ne c r hc]
          refine ⟨?_, ?_⟩
          · simp only [List.headI]
            exact List.cons_prefix_cons.mpr ⟨rfl, h1⟩
          · simp only [List.tail_cons]
            exact h2
      | some k =>
        have hout : (scanSub f (c :: r)).1 = (scanSub f ((c :: r).drop k)).1 := by
          rw [scanSub_cons_some hpos hm]
        have hk : 0 < k := hpos _ _ hm
        rcases hrest _ _ hm with hd | ⟨r2, hd⟩
        · rw [hout, hd]
          have h0 : scanSub f [] = ([], []) := rfl
          rw [h0]
          constructor
          · exact List.nil_prefix
          · exact linesRel_nil_left _
        · have hlen2 : r2.length + 1 = r.length + 1 - k := by
            have := congrArg List.length hd
            simpa using this.symm
          have hout2 : (scanSub f ('\n' :: r2)).1 = '\n' :: (scanSub f r2).1 := by
            rw [scanSub_cons_none hpos (hnlnone r2)]
          obtain ⟨g1, g2⟩ := ih (n - 1) (by omega) ('\n' :: r2) (by simp; omega)
          rw [hout2, splitLines_nl_cons, splitLines_nl_cons] at g2
          simp only [List.tail_cons] at g2
          have hTD : (c :: r).take k ++ '\n' :: r2 = c :: r := by
            rw [← hd]
            exact List.take_append_drop k (c :: r)
          rw [hout, hd, hout2, splitLines_nl_cons, ← hTD, splitLines_append_nl]
          constructor
          · exact List.nil_prefix
          · simp only [List.tail_cons]
            cases hq : splitLines ((c :: r).take k) with
            | nil => exact absurd hq (splitLines_ne_nil _)
            | cons q Q =>
              simp only [List.cons_append, List.tail_cons]
              exact linesRel_append_skip g2 Q

theorem scan_lines_prefix (f : List Char → Option Nat)
    (hpos : ∀ s k, f s = some k → 0 < k)
    (hrest : ∀ s k, f s = some k → s.drop k = [] ∨ ∃ r, s.drop k = '\n' :: r)
    (hnlnone : ∀ r, f ('\n' :: r) = none) (s : List Char) :
    ∀ l ∈ splitLines (scanSub f s).1, ∃ m ∈ splitLines s, l <+: m := by
  obtain ⟨h1, h2⟩ := scan_lines_struct f hpos hrest hnlnone s
  intro l hl
  cases ho : splitLines (scanSub f s).1 with
  | nil => exact absurd ho (splitLines_ne_nil _)
  | cons a L =>
    cases hi : splitLines s with
    | nil => exact absurd hi (splitLines_ne_nil _)
    | cons b T =>
      rw [ho, hi] at h1 h2
      simp only [List.headI, List.tail_cons] at h1 h2
      rw [ho] at hl
      rcases List.mem_cons.mp hl with rfl | hl2
      · exact ⟨b, by simp, h1⟩
      · obtain ⟨m, hm, hp⟩ := linesRel_mem h2 l hl2
        exact ⟨m, by simp [hm], hp⟩

end DeAiAgent

namespace DeAiAgent

/-! ## Plain spans: monotonicity and relation to matches -/

theorem hasPlainSpan_cons {c : Char} {l : List Char} (h : hasPlainSpan l = true) :
    hasPlainSpan (c :: l) = true := by
  simp only [hasPlainSpan, List.any_eq_true] at h ⊢
  obtain ⟨t, ht, hg⟩ := h
  exact ⟨t, (List.mem_tails _ _).mpr
    (((List.mem_tails _ _).mp ht).trans (List.suffix_cons c l)), hg⟩

theorem hasPlainSpan_prefix_mono {l m : List Char} (hp : l <+: m)
    (h : hasPlainSpan l = true) : hasPlainSpan m = true := by
  obtain ⟨e, rfl⟩ := hp
  simp only [hasPlainSpan, List.any_eq_true, Bool.and_eq_true] at h ⊢
  obtain ⟨t, ht, hg1, hg2⟩ := h
  obtain ⟨pre, hpre⟩ := (List.mem_tails _ _).mp ht
  refine ⟨t ++ e, (List.mem_tails _ _).mpr ⟨pre, by rw [← List.append_assoc, hpre]⟩, ?_, ?_⟩
  · exact isPrefixCI_append hg1
  · rw [List.drop_append_of_le_length (isPrefixCI_length hg1)]
    exact occursAnyCI_of_prefix ⟨e, rfl⟩ hg2

theorem plainMatch_takeLine_span {v : List Char} {k : Nat}
    (h : plainMatchLen v = some k) : hasPlainSpan (takeLine v) = true := by
  obtain ⟨h1, h2, -⟩ := plainMatchLen_eq_some.mp h
  have hnl : ∀ a ∈ genWithLit, lowerChar a ≠ '\n' := by decide
  simp only [hasPlainSpan, List.any_eq_true, Bool.and_eq_true]
  refine ⟨takeLine v, (List.mem_tails _ _).mpr (List.suffix_refl _),
    isPrefixCI_takeLine hnl h1, ?_⟩
  rw [takeLine_drop_comm hnl h1]
  exact h2

theorem plainMatch_suffix_line : ∀ {y v : List Char} {k : Nat}, v <:+ y →
    plainMatchLen v = some k → ∃ l ∈ splitLines y, hasPlainSpan l = true := by
  intro y
  induction y with
  | nil =>
    intro v k hv hm
    rw [List.suffix_nil.mp hv] at hm
    have h0 : plainMatchLen ([] : List Char) = none := by decide
    rw [h0] at hm
    exact Option.noConfusion hm
  | cons c r ih =>
    intro v k hv hm
    rcases List.suffix_cons_iff.mp hv with rfl | hv2
    · refine ⟨(splitLines (c :: r)).headI, ?_, ?_⟩
      · cases h : splitLines (c :: r) with
        | nil => exact absurd h (splitLines_ne_nil _)
        | cons a L => simp
      · rw [headI_splitLines]
        exact plainMatch_takeLine_span hm
    · obtain ⟨l, hl, hsp⟩ := ih hv2 hm
      by_cases hc : c = '\n'
      · subst hc
        rw [splitLines_nl_cons]
        exact ⟨l, by simp [hl], hsp⟩
      · rw [splitLines_cons_of_ne c r hc]
        cases hi : splitLines r with
        | nil => exact absurd hi (splitLines_ne_nil r)
        | cons b T =>
          rw [hi] at hl
          rcases List.mem_cons.mp hl with rfl | hl2
          · refine ⟨c :: (splitLines r).headI, by simp [hi], ?_⟩
            have hh : (splitLines r).headI = l := by rw [hi]; rfl
            rw [hh]
            exact hasPlainSpan_cons hsp
          · refine ⟨l, ?_, hsp⟩
            simp only [hi, List.headI, List.tail_cons, List.mem_cons]
            right
            exact hl2

theorem noPlainSpan_suffix_none {y : List Char}
    (h : ∀ l ∈ splitLines y, hasPlainSpan l = false) :
    ∀ t, t <:+ y → plainMatchLen t = none := by
  intro t ht
  cases hm : plainMatchLen t with
  | none => rfl
  | some k =>
    obtain ⟨l, hl, hsp⟩ := plainMatch_suffix_line ht hm
    rw [h l hl] at hsp
    exact Bool.noConfusion hsp

theorem plain_scan_id_of_no_span {y : List Char}
    (h : ∀ l ∈ splitLines y, hasPlainSpan l = false) :
    scanSub plainMatchLen y = (y, []) :=
  scanSub_id plainMatchLen_pos (noPlainSpan_suffix_none h)

theorem emoji_scan_id_of_no_span {y : List Char}
    (h : ∀ l ∈ splitLines y, hasPlainSpan l = false) :
    scanSub emojiMatchLen y = (y, []) := by
  apply scanSub_id emojiMatchLen_pos
  intro t ht
  cases hm : emojiMatchLen t with
  | none => rfl
  | some k =>
    obtain ⟨t2, k2, ht2, hp2⟩ := emoji_some_to_plain hm
    rw [noPlainSpan_suffix_none h t2 (ht2.trans ht)] at hp2
    exact Option.noConfusion hp2

theorem takeLine_append_left {A : List Char} (h : ∀ a ∈ A, a ≠ '\n')
    (e : List Char) : A <+: takeLine (A ++ e) := by
  induction A with
  | nil => exact List.nil_prefix
  | cons a A2 ih =>
    rw [List.cons_append, takeLine_cons, if_neg (h a (by simp))]
    exact List.cons_prefix_cons.mpr ⟨rfl, ih fun x hx => h x (by simp [hx])⟩

end DeAiAgent

namespace DeAiAgent

/-! ## The plain pass kills every plain span it could ever match

Since a plain match always extends to the end of its line, a line of the
scan's output is either an untouched input line or the part of an input line
before a match; in both cases no position of the output line can start a
plain span, because such a span would extend (within the same line of the
then-remaining input) to a plain match the scanner would have taken. -/

theorem plain_scan_no_span : ∀ (s : List Char),
    ∀ l ∈ splitLines (scanSub plainMatchLen s).1, hasPlainSpan l = false := by
  suffices H : ∀ n (s : List Char), s.length ≤ n →
      ∀ l ∈ splitLines (scanSub plainMatchLen s).1, hasPlainSpan l = false by
    exact fun s => H s.length s (Nat.le_refl _)
  intro n
  induction n using Nat.strong_induction_on with
  | _ n ih =>
    intro s hs
    cases s with
    | nil =>
      have h0 : scanSub plainMatchLen [] = ([], []) := rfl
      rw [h0]
      intro l hl
      have hl0 : l = [] := by simpa [splitLines] using hl
      subst hl0
      decide
    | cons c r =>
      have hn1 : 1 ≤ n := le_trans (by simp) hs
      simp only [List.length_cons] at hs
      cases hm : plainMatchLen (c :: r) with
      | none =>
        have hout : (scanSub plainMatchLen (c :: r)).1
            = c :: (scanSub plainMatchLen r).1 := by
          rw [scanSub_cons_none plainMatchLen_pos hm]
        have IHr := ih (n - 1) (by omega) r (by omega)
        by_cases hc : c = '\n'
        · subst hc
          rw [hout, splitLines_nl_cons]
          intro l hl
          rcases List.mem_cons.mp hl with rfl | hl2
          · decide
          · exact IHr l hl2
        · rw [hout, splitLines_cons_of_ne c _ hc]
          intro l hl
          rcases List.mem_cons.mp hl with rfl | hl2
          · by_contra hcon
            rw [Bool.not_eq_false] at hcon
            simp only [hasPlainSpan, List.any_eq_true, Bool.and_eq_true] at hcon
            obtain ⟨t, ht, hg1, hg2⟩ := hcon
            have hhead : (splitLines (scanSub plainMatchLen r).1).headI
                ∈ splitLines (scanSub plainMatchLen r).1 := by
              cases hq : splitLines (scanSub plainMatchLen r).1 with
              | nil => exact absurd hq (splitLines_ne_nil _)
              | cons a L => simp
            rcases List.suffix_cons_iff.mp ((List.mem_tails _ _).mp ht) with rfl | ht2
            · have hA : (splitLines (scanSub plainMatchLen r).1).headI
                  <+: (splitLines r).headI :=
                (scan_lines_struct plainMatchLen plainMatchLen_pos
                  (fun _ _ h => plainMatchLen_rest_shape h) plainMatchLen_nl r).1
              have hpre : (c :: (splitLines (scanSub plainMatchLen r).1).headI)
                  <+: c :: r :=
                List.cons_prefix_cons.mpr
                  ⟨rfl, hA.trans (headI_splitLines r ▸ takeLine_prefix r)⟩
              obtain ⟨e, he⟩ := hpre
              have hp1 : isPrefixCI genWithLit (c :: r) = true := by
                rw [← he]
                exact isPrefixCI_append hg1
              have hlen : genWithLit.length
                  ≤ (c :: (splitLines (scanSub plainMatchLen r).1).headI).length :=
                isPrefixCI_length hg1
              have hno : ∀ a ∈ (c :: (splitLines (scanSub plainMatchLen r).1).headI).drop
                  genWithLit.length, a ≠ '\n' := by
                intro a ha han
                have hmem := List.mem_of_mem_drop ha
                rcases List.mem_cons.mp hmem with h1 | h1
                · exact hc (h1 ▸ han)
                · exact splitLines_no_nl _ hhead (han ▸ h1)
              have hdrop : (c :: r).drop genWithLit.length
                  = (c :: (splitLines (scanSub plainMatchLen r).1).headI).drop
                      genWithLit.length ++ e := by
                rw [← he, List.drop_append_of_le_length hlen]
              have hpref : (c :: (splitLines (scanSub plainMatchLen r).1).headI).drop
                  genWithLit.length <+: takeLine ((c :: r).drop genWithLit.length) := by
                rw [hdrop]
                exact takeLine_append_left hno e
              have hsome : plainMatchLen (c :: r)
                  = some (genWithLit.length
                      + (takeLine ((c :: r).drop genWithLit.length)).length) :=
                plainMatchLen_eq_some.mpr ⟨hp1, occursAnyCI_of_prefix hpref hg2, rfl⟩
              rw [hm] at hsome
              exact Option.noConfusion hsome
            · have hspan : hasPlainSpan
                  ((splitLines (scanSub plainMatchLen r).1).headI) = true := by
                simp only [hasPlainSpan, List.any_eq_true, Bool.and_eq_true]
                exact ⟨t, (List.mem_tails _ _).mpr ht2, hg1, hg2⟩
              rw [IHr _ hhead] at hspan
              exact Bool.noConfusion hspan
          · exact IHr l (List.mem_of_mem_tail hl2)
      | some k =>
        have hout : (scanSub plainMatchLen (c :: r)).1
            = (scanSub plainMatchLen ((c :: r).drop k)).1 := by
          rw [scanSub_cons_some plainMatchLen_pos hm]
        have hk := plainMatchLen_pos _ _ hm
        rcases plainMatchLen_rest_shape hm with hd | ⟨r2, hd⟩
        · rw [hout, hd]
          have h0 : scanSub plainMatchLen [] = ([], []) := rfl
          rw [h0]
          intro l hl
          have hl0 : l = [] := by simpa [splitLines] using hl
          subst hl0
          decide
        · have hlen2 : r2.length + 1 = r.length + 1 - k := by
            have := congrArg List.length hd
            simpa using this.symm
          have hout2 : (scanSub plainMatchLen ('\n' :: r2)).1
              = '\n' :: (scanSub plainMatchLen r2).1 := by
            rw [scanSub_cons_none plainMatchLen_pos (plainMatchLen_nl r2)]
          rw [hout, hd, hout2, splitLines_nl_cons]
          intro l hl
          rcases List.mem_cons.mp hl with rfl | hl2
          · decide
          · exact ih (n - 1) (by omega) r2 (by omega) l hl2

end DeAiAgent

namespace DeAiAgent

/-! ## Linewise predicates through collapse and finalize -/

theorem lines_of_collapseNl {w : List Char} :
    ∀ l ∈ splitLines (collapseNl w), l = [] ∨ l ∈ splitLines w := by
  intro l hl
  by_cases hne : l = []
  · exact Or.inl hne
  · right
    have hmem : l ∈ nonNlRuns (collapseNl w) := by
      simp [nonNlRuns, List.mem_filter, hl, hne]
    rw [nonNlRuns_collapseNl] at hmem
    exact (List.mem_filter.mp hmem).1

theorem lines_of_rstrip {w : List Char} :
    ∀ l ∈ splitLines (rstripPy w), ∃ m ∈ splitLines w, l <+: m := by
  obtain ⟨e, he⟩ := rstripPy_prefix w
  intro l hl
  have := mem_lines_prefix_append (rstripPy w) e l hl
  rwa [he] at this

theorem lines_of_finalizeMsg {w : List Char} :
    ∀ l ∈ splitLines (finalizeMsg w), l = [] ∨ ∃ m ∈ splitLines w, l <+: m := by
  intro l hl
  rw [finalizeMsg] at hl
  split_ifs at hl with hz
  · left
    simpa [splitLines] using hl
  · have he : rstripPy w ++ ['\n'] = rstripPy w ++ '\n' :: [] := rfl
    rw [he, splitLines_append_nl] at hl
    rcases List.mem_append.mp hl with h1 | h1
    · exact Or.inr (lines_of_rstrip l h1)
    · left
      simpa [splitLines] using h1

theorem lines_pred_finalize_collapse {P : List Char → Bool}
    (hnil : P [] = false)
    (hmono : ∀ {l m : List Char}, l <+: m → P l = true → P m = true)
    {w : List Char} (h : ∀ l ∈ splitLines w, P l = false) :
    ∀ l ∈ splitLines (finalizeMsg (collapseNl w)), P l = false := by
  intro l hl
  rcases lines_of_finalizeMsg l hl with rfl | ⟨m, hm, hp⟩
  · exact hnil
  · rcases lines_of_collapseNl m hm with rfl | hm2
    · rw [List.prefix_nil.mp hp]
      exact hnil
    · by_contra hcon
      rw [Bool.not_eq_false] at hcon
      have hPm := hmono hp hcon
      rw [h m hm2] at hPm
      exact Bool.noConfusion hPm

theorem coauthorLineMatches_prefix {l m : List Char} (hp : l <+: m)
    (h : coauthorLineMatches l = true) : coauthorLineMatches m = true := by
  obtain ⟨e, rfl⟩ := hp
  simp only [coauthorLineMatches, Bool.and_eq_true] at h ⊢
  refine ⟨isPrefixCI_append h.1, ?_⟩
  rw [List.drop_append_of_le_length (isPrefixCI_length h.1)]
  exact occursAnyCI_of_prefix ⟨e, rfl⟩ h.2

theorem noCo_scan {f : List Char → Option Nat}
    (hpos : ∀ s k, f s = some k → 0 < k)
    (hrest : ∀ s k, f s = some k → s.drop k = [] ∨ ∃ r, s.drop k = '\n' :: r)
    (hnlnone : ∀ r, f ('\n' :: r) = none) {y : List Char}
    (h : ∀ l ∈ splitLines y, coauthorLineMatches l = false) :
    ∀ l ∈ splitLines (scanSub f y).1, coauthorLineMatches l = false := by
  intro l hl
  obtain ⟨m, hm, hp⟩ := scan_lines_prefix f hpos hrest hnlnone y l hl
  by_contra hcon
  rw [Bool.not_eq_false] at hcon
  have hPm := coauthorLineMatches_prefix hp hcon
  rw [h m hm] at hPm
  exact Bool.noConfusion hPm

theorem noCo_remove_coauthor (text : List Char) :
    ∀ l ∈ splitLines (remove_coauthor text).1, coauthorLineMatches l = false := by
  have hco1 : (remove_coauthor text).1
      = finalizeMsg (collapseNl (joinLines
          ((splitLines text).map fun l => if coauthorLineMatches l then [] else l))) := by
    rw [remove_coauthor_eq]
  rw [hco1]
  apply lines_pred_finalize_collapse (by decide) coauthorLineMatches_prefix
  have hMne : (splitLines text).map
      (fun l => if coauthorLineMatches l then [] else l) ≠ [] := by
    intro hcon
    exact splitLines_ne_nil text (List.map_eq_nil_iff.mp hcon)
  have hMnl : ∀ l ∈ (splitLines text).map
      (fun l => if coauthorLineMatches l then [] else l), '\n' ∉ l := by
    intro l hl
    obtain ⟨li, hli, hfl⟩ := List.mem_map.mp hl
    by_cases hm : coauthorLineMatches li = true
    · rw [if_pos hm] at hfl
      rw [← hfl]
      simp
    · rw [if_neg hm] at hfl
      rw [← hfl]
      exact splitLines_no_nl li hli
  rw [splitLines_joinLines hMne hMnl]
  intro l hl
  obtain ⟨li, hli, hfl⟩ := List.mem_map.mp hl
  by_cases hm : coauthorLineMatches li = true
  · rw [if_pos hm] at hfl
    rw [← hfl]
    decide
  · rw [if_neg hm] at hfl
    rw [← hfl]
    simpa using hm

/-! ## Identity of both passes on an already-clean text -/

theorem remove_coauthor_id {y : List Char}
    (hno : ∀ l ∈ splitLines y, coauthorLineMatches l = false)
    (hnt : containsSeq "\n\n\n".data y = false)
    (hfin : finalizeMsg y = y) :
    remove_coauthor y = (y, []) := by
  rw [remove_coauthor_eq]
  have hmap : (splitLines y).map (fun l => if coauthorLineMatches l then [] else l)
      = splitLines y := by
    conv_rhs => rw [← List.map_id (splitLines y)]
    apply List.map_congr_left
    intro l hl
    rw [hno l hl]
    simp
  have hfilter : (splitLines y).filter coauthorLineMatches = [] := by
    rw [List.filter_eq_nil_iff]
    intro l hl
    simp [hno l hl]
  rw [hmap, join_splitLines, collapseNl_fix hnt, hfin, hfilter]

theorem remove_branding_id_of_spans {y : List Char}
    (hsp : ∀ l ∈ splitLines y, hasPlainSpan l = false)
    (hbr : '[' ∉ y)
    (hnt : containsSeq "\n\n\n".data y = false)
    (hfin : finalizeMsg y = y) :
    remove_branding y = (y, []) := by
  have h1 := emoji_scan_id_of_no_span hsp
  have h2 := plain_scan_id_of_no_span hsp
  have h3 := link_scan_id_of_no_bracket hbr
  rw [remove_branding_eq]
  simp only [h1, h2, h3]
  rw [collapseNl_fix hnt, hfin]
  rfl

end DeAiAgent

namespace DeAiAgent

/-! ## Concrete claim theorems -/

/-- C1: for the input `"Add feature\n\n🤖 Generated with [Claude Code](https://claude.com/claude-code)\n"`,
`sanitize_commit_message` with default options (`keep_coauthor = false`,
`keep_branding = false`) returns exactly `"Add feature\n"`, the branding line
with its leading emoji marker fully removed. -/
theorem C1_scenario_branding_removed :
    (sanitize_commit_message
        "Add feature\n\n🤖 Generated with [Claude Code](https://claude.com/claude-code)\n".data
        false false).1
      = "Add feature\n".data := by decide

/-- C2 counterexample: for the three consecutive trailer lines Alice / AI /
Bob, the matched line's terminator is not deleted, so the two human lines do
not become adjacent: an empty line stands between them in the output of
`remove_coauthor`. -/
theorem C2_counterexample_terminator_kept :
    (remove_coauthor
        "Co-Authored-By: Alice <a@x>\nCo-Authored-By: Claude <c@x>\nCo-Authored-By: Bob <b@x>\n".data).1
        ≠ "Co-Authored-By: Alice <a@x>\nCo-Authored-By: Bob <b@x>\n".data
    ∧ containsSeq "\n\n".data
        (remove_coauthor
          "Co-Authored-By: Alice <a@x>\nCo-Authored-By: Claude <c@x>\nCo-Authored-By: Bob <b@x>\n".data).1
        = true := by decide

/-- C2 (amended): the co-author pass deletes each matched line's content and
records it, but keeps the line terminator (`$` matches before the newline),
so an empty line remains where the matched line stood — it disappears only
when absorbed by the collapse of a three-or-more newline run or by trailing
trimming.  In particular, for the Alice / AI / Bob input the two human lines
are separated by exactly one blank line. -/
theorem C2_matched_line_leaves_blank :
    remove_coauthor
        "Co-Authored-By: Alice <a@x>\nCo-Authored-By: Claude <c@x>\nCo-Authored-By: Bob <b@x>\n".data
      = ("Co-Authored-By: Alice <a@x>\n\nCo-Authored-By: Bob <b@x>\n".data,
         ["Co-Authored-By: Claude <c@x>".data]) := by decide

/-- C3 counterexample: a markdown link whose label is not an AI name does not
survive `remove_branding` when it sits on the same line after a
`Generated with` phrase followed by an AI tool token: the greedy span
removal deletes it together with the rest of the line. -/
theorem C3_counterexample_greedy_span_eats_link :
    (remove_branding "Generated with Claude see [docs](https://e.com)\n".data).1 = []
    ∧ containsSeq "[docs](https://e.com)".data
        (remove_branding "Generated with Claude see [docs](https://e.com)\n".data).1
        = false := by decide

/-- C4 counterexample: `sanitize_commit_message` with default options is not
idempotent.  For the input `"Generated[AI](u) with AI"` the first application
removes the markdown link `[AI](u)`, splicing the text into
`"Generated with AI\n"`, which the second application removes entirely. -/
theorem C4_counterexample_not_idempotent :
    (sanitize_commit_message
        (sanitize_commit_message "Generated[AI](u) with AI".data false false).1
        false false).1
      ≠ (sanitize_commit_message "Generated[AI](u) with AI".data false false).1 := by decide

/-- C5 counterexample: with `keep_coauthor = true` and
`keep_branding = true`, the input passes through verbatim, so the output for
`"x "` is `"x "` — a nonempty string ending in a space, neither empty nor
newline-terminated. -/
theorem C5_counterexample_passthrough_not_normalized :
    (sanitize_commit_message "x ".data true true).1 = "x ".data
    ∧ (sanitize_commit_message "x ".data true true).1 ≠ []
    ∧ (sanitize_commit_message "x ".data true true).1.getLast? ≠ some '\n' := by decide

/-- C6: with `keep_coauthor = true` and `keep_branding = true`,
`sanitize_commit_message` returns the input completely unchanged — no
removal, no blank-line collapsing, no trimming, no appended newline — and an
empty removal record. -/
theorem C6_keep_both_verbatim (text : List Char) :
    sanitize_commit_message text true true = (text, ⟨[], []⟩) := rfl

/-- C7 counterexample: a `Co-Authored-By:` trailer line containing no
AI-agent token of the co-author pass can still be mangled by the branding
pass: `"Co-Authored-By: Generated with Ai Lee <a@x>"` contains no co-author
token, yet the plain `Generated with` pattern (whose token list includes the
bare substring `AI`) truncates it, so the human trailer does not appear in
the output with identical content. -/
theorem C7_counterexample_branding_maims_human_trailer :
    (sanitize_commit_message
        "Co-Authored-By: Claude <c@x>\nCo-Authored-By: Generated with Ai Lee <a@x>\n".data
        false false).1
      = "\nCo-Authored-By:\n".data
    ∧ containsSeq "Co-Authored-By: Generated with Ai Lee <a@x>".data
        (sanitize_commit_message
          "Co-Authored-By: Claude <c@x>\nCo-Authored-By: Generated with Ai Lee <a@x>\n".data
          false false).1
        = false := by decide

/-- C7 (amended): for a text that is a block of trailer lines — each line
either an AI co-author trailer (matched by the co-author pattern) or a
non-matching line that is nonempty, free of newline characters, emoji
markers, any case-insensitive `Generated with` occurrence and `[`, and has
no trailing whitespace — default `sanitize_commit_message` records exactly
the matched lines, in order, in the `coauthor` category, records nothing in
`branding`, and the non-newline runs of the output are exactly the
non-matching lines, verbatim and in their original relative order.  (The
original claim fails for human trailers that themselves trigger the branding
pass, see the counterexample; the cleanliness side conditions exclude
that interference.) -/
theorem C7_trailer_lines_preserved (lines : List (List Char))
    (hne : lines ≠ [])
    (hnl : ∀ l ∈ lines, '\n' ∉ l)
    (hlines : ∀ l ∈ lines, coauthorLineMatches l = true ∨
      (coauthorLineMatches l = false ∧ l ≠ [] ∧ (∀ e ∈ emojiMarkers, e ∉ l) ∧
       occursCI genWithLit l = false ∧ '[' ∉ l ∧ rstripPy l = l)) :
    (sanitize_commit_message (joinLines lines ++ ['\n']) false false).2.coauthor
        = lines.filter coauthorLineMatches
    ∧ (sanitize_commit_message (joinLines lines ++ ['\n']) false false).2.branding = []
    ∧ nonNlRuns (sanitize_commit_message (joinLines lines ++ ['\n']) false false).1
        = lines.filter (fun l => !coauthorLineMatches l) := by
  have hsp : splitLines (joinLines lines ++ ['\n']) = lines ++ [[]] := by
    have he : joinLines lines ++ ['\n'] = joinLines lines ++ '\n' :: [] := rfl
    rw [he, splitLines_append_nl, splitLines_joinLines hne hnl]
    rfl
  have hmnil : coauthorLineMatches ([] : List Char) = false := by decide
  have hclean : ∀ l ∈ splitLines (joinLines lines ++ ['\n']),
      coauthorLineMatches l = false →
      (∀ e ∈ emojiMarkers, e ∉ l) ∧ occursCI genWithLit l = false ∧ '[' ∉ l := by
    rw [hsp]
    intro l hl hm
    rcases List.mem_append.mp hl with h1 | h1
    · rcases hlines l h1 with hA | ⟨-, -, h3, h4, h5, -⟩
      · rw [hA] at hm
        exact absurd hm (by simp)
      · exact ⟨h3, h4, h5⟩
    · rw [List.mem_singleton.mp h1]
      exact ⟨by simp, occursCI_nil_of_ne (by decide), by simp⟩
  have hbrand : remove_branding (remove_coauthor (joinLines lines ++ ['\n'])).1
      = ((remove_coauthor (joinLines lines ++ ['\n'])).1, []) :=
    remove_branding_clean_co
      (fun e he l hl hm => (hclean l hl hm).1 e he)
      (fun l hl hm => (hclean l hl hm).2.1)
      (fun l hl hm => (hclean l hl hm).2.2)
  have hco2 : (remove_coauthor (joinLines lines ++ ['\n'])).2
      = lines.filter coauthorLineMatches := by
    have h2 : (remove_coauthor (joinLines lines ++ ['\n'])).2
        = (splitLines (joinLines lines ++ ['\n'])).filter coauthorLineMatches := by
      rw [remove_coauthor_eq]
    rw [h2, hsp, List.filter_append]
    simp [hmnil]
  have hout : nonNlRuns (remove_coauthor (joinLines lines ++ ['\n'])).1
      = lines.filter (fun l => !coauthorLineMatches l) := by
    have hco1 : (remove_coauthor (joinLines lines ++ ['\n'])).1
        = finalizeMsg (collapseNl (joinLines
            ((lines.map fun l => if coauthorLineMatches l then [] else l) ++ [[]]))) := by
      rw [remove_coauthor_eq, hsp, List.map_append]
      simp
    have hMnl : ∀ l ∈ (lines.map fun l => if coauthorLineMatches l then [] else l) ++ [[]],
        '\n' ∉ l := by
      intro l hl
      rcases List.mem_append.mp hl with h1 | h1
      · obtain ⟨li, hli, hfl⟩ := List.mem_map.mp h1
        by_cases hm : coauthorLineMatches li = true
        · rw [if_pos hm] at hfl
          rw [← hfl]
          simp
        · rw [if_neg hm] at hfl
          rw [← hfl]
          exact hnl li hli
      · rw [List.mem_singleton.mp h1]
        simp
    have hMne : (lines.map fun l => if coauthorLineMatches l then [] else l) ++ [[]]
        ≠ [] := by simp
    have hws : ∀ l ∈ nonNlRuns (collapseNl (joinLines
        ((lines.map fun l => if coauthorLineMatches l then [] else l) ++ [[]]))),
        ∀ c, l.getLast? = some c → isPySpace c = false := by
      rw [nonNlRuns_collapseNl, nonNlRuns_joinLines hMne hMnl]
      intro l hl c hc
      obtain ⟨hmem, hne2⟩ := List.mem_filter.mp hl
      have hlne : l ≠ [] := by simpa using hne2
      rcases List.mem_append.mp hmem with h1 | h1
      · obtain ⟨li, hli, hfl⟩ := List.mem_map.mp h1
        by_cases hm : coauthorLineMatches li = true
        · rw [if_pos hm] at hfl
          exact absurd hfl.symm hlne
        · rw [if_neg hm] at hfl
          rcases hlines li hli with hA | ⟨-, -, -, -, -, hr⟩
          · exact absurd hA hm
          · rw [← hfl, ← hr] at hc
            exact getLast?_rstripPy hc
      · exact absurd (List.mem_singleton.mp h1) hlne
    rw [hco1, nonNlRuns_finalizeMsg hws, nonNlRuns_collapseNl,
      nonNlRuns_joinLines hMne hMnl, List.filter_append]
    have h0 : ([[]] : List (List Char)).filter (fun l => l ≠ []) = [] := by simp
    rw [h0, List.append_nil]
    exact filter_mask_lines lines fun l hl => (hlines l hl).imp id fun h => h.2.1
  refine ⟨?_, ?_, ?_⟩
  · have h1 : (sanitize_commit_message (joinLines lines ++ ['\n']) false false).2.coauthor
        = (remove_coauthor (joinLines lines ++ ['\n'])).2 := rfl
    rw [h1, hco2]
  · have h1 : (sanitize_commit_message (joinLines lines ++ ['\n']) false false).2.branding
        = (remove_branding (remove_coauthor (joinLines lines ++ ['\n'])).1).2 := rfl
    rw [h1, hbrand]
  · rw [sanitize_default_eq, hbrand]
    exact hout

/-- Witness for C7: three trailer lines Alice / Claude / Bob; the Claude
line is recorded as the single coauthor entry, branding records nothing, and
the output's content lines are exactly the Alice and Bob lines in order. -/
theorem C7_trailer_witness :
    (sanitize_commit_message (joinLines
        ["Co-Authored-By: Alice <a@x.com>".data,
         "Co-Authored-By: Claude <noreply@anthropic.com>".data,
         "Co-Authored-By: Bob <b@x.com>".data] ++ ['\n']) false false).2.coauthor
      = ["Co-Authored-By: Alice <a@x.com>".data,
         "Co-Authored-By: Claude <noreply@anthropic.com>".data,
         "Co-Authored-By: Bob <b@x.com>".data].filter coauthorLineMatches
    ∧ (sanitize_commit_message (joinLines
        ["Co-Authored-By: Alice <a@x.com>".data,
         "Co-Authored-By: Claude <noreply@anthropic.com>".data,
         "Co-Authored-By: Bob <b@x.com>".data] ++ ['\n']) false false).2.branding = []
    ∧ nonNlRuns (sanitize_commit_message (joinLines
        ["Co-Authored-By: Alice <a@x.com>".data,
         "Co-Authored-By: Claude <noreply@anthropic.com>".data,
         "Co-Authored-By: Bob <b@x.com>".data] ++ ['\n']) false false).1
      = ["Co-Authored-By: Alice <a@x.com>".data,
         "Co-Authored-By: Claude <noreply@anthropic.com>".data,
         "Co-Authored-By: Bob <b@x.com>".data].filter (fun l => !coauthorLineMatches l) :=
  C7_trailer_lines_preserved
    ["Co-Authored-By: Alice <a@x.com>".data,
     "Co-Authored-By: Claude <noreply@anthropic.com>".data,
     "Co-Authored-By: Bob <b@x.com>".data]
    (by decide) (by decide) (by decide)

/-- C4 (amended): default `sanitize_commit_message` is idempotent on every
input that contains no `[` character: a second application returns the
cleaned text unchanged with an empty removal record.  (Unrestricted
idempotence fails: removing a markdown link can splice its surroundings into
a new link that only the second application removes, see the
counterexample.  The `[`-free restriction disables the link pattern, and the
remaining passes cannot re-create their own matches: the co-author pass
deletes whole line contents, and the `Generated with` matches always extend
to the end of a line, so removal only shortens lines in place.) -/
theorem C4_idempotent_no_bracket (text : List Char) (hbr : '[' ∉ text) :
    sanitize_commit_message (sanitize_commit_message text false false).1 false false
      = ((sanitize_commit_message text false false).1, ⟨[], []⟩) := by
  have hbr0 : '[' ∉ (remove_coauthor text).1 := by
    intro hin
    rcases mem_remove_coauthor_out hin with h1 | ⟨l, hl, -, hx⟩
    · exact absurd h1 (by decide)
    · exact hbr ((infix_of_mem_splitLines hl).subset hx)
  have hbr1 : '[' ∉ (scanSub emojiMatchLen (remove_coauthor text).1).1 :=
    fun hin => hbr0 ((scanSub_sublist emojiMatchLen emojiMatchLen_pos _).subset hin)
  have hbr2 : '[' ∉ (scanSub plainMatchLen
      (scanSub emojiMatchLen (remove_coauthor text).1).1).1 :=
    fun hin => hbr1 ((scanSub_sublist plainMatchLen plainMatchLen_pos _).subset hin)
  have h3 := link_scan_id_of_no_bracket hbr2
  have hy : (sanitize_commit_message text false false).1
      = finalizeMsg (collapseNl
          (scanSub plainMatchLen (scanSub emojiMatchLen (remove_coauthor text).1).1).1) := by
    rw [sanitize_default_eq]
    simp only [remove_branding_eq, h3]
  have hspY : ∀ l ∈ splitLines ((sanitize_commit_message text false false).1),
      hasPlainSpan l = false := by
    rw [hy]
    exact lines_pred_finalize_collapse (by decide) hasPlainSpan_prefix_mono
      (plain_scan_no_span _)
  have hnoCoY : ∀ l ∈ splitLines ((sanitize_commit_message text false false).1),
      coauthorLineMatches l = false := by
    rw [hy]
    apply lines_pred_finalize_collapse (by decide) coauthorLineMatches_prefix
    apply noCo_scan plainMatchLen_pos (fun _ _ h => plainMatchLen_rest_shape h)
      plainMatchLen_nl
    apply noCo_scan emojiMatchLen_pos (fun _ _ h => emojiMatchLen_rest_shape h)
      emojiMatchLen_nl
    exact noCo_remove_coauthor text
  have hbrY : '[' ∉ (sanitize_commit_message text false false).1 := by
    rw [hy]
    intro hin
    rcases mem_finalizeMsg hin with h1 | h1
    · rcases mem_collapseNl h1 with h2 | h2
      · exact absurd h2 (by decide)
      · exact hbr2 h2
    · exact absurd h1 (by decide)
  have hntY : containsSeq "\n\n\n".data ((sanitize_commit_message text false false).1)
      = false := by
    rw [hy]
    exact noTriple_finalizeMsg (noTriple_collapseNl _)
  have hfinY : finalizeMsg ((sanitize_commit_message text false false).1)
      = (sanitize_commit_message text false false).1 := by
    rw [hy]
    exact finalizeMsg_idem _
  have hA : remove_coauthor ((sanitize_commit_message text false false).1)
      = ((sanitize_commit_message text false false).1, []) :=
    remove_coauthor_id hnoCoY hntY hfinY
  have hB : remove_branding ((sanitize_commit_message text false false).1)
      = ((sanitize_commit_message text false false).1, []) :=
    remove_branding_id_of_spans hspY hbrY hntY hfinY
  rw [sanitize_default_eq]
  simp only [hA, hB]

/-- Witness for C4: a `[`-free message with an emoji branding line and an AI
co-author trailer; the first sanitization fixes it and the second changes
nothing and records nothing. -/
theorem C4_idempotent_witness :
    ('[' ∉ "Fix bug\n\n🤖 Generated with Claude\nCo-Authored-By: Claude <c@x>\n".data)
    ∧ sanitize_commit_message
        (sanitize_commit_message
          "Fix bug\n\n🤖 Generated with Claude\nCo-Authored-By: Claude <c@x>\n".data
          false false).1 false false
      = ((sanitize_commit_message
            "Fix bug\n\n🤖 Generated with Claude\nCo-Authored-By: Claude <c@x>\n".data
            false false).1, ⟨[], []⟩) :=
  ⟨by decide,
   C4_idempotent_no_bracket
     "Fix bug\n\n🤖 Generated with Claude\nCo-Authored-By: Claude <c@x>\n".data
     (by decide)⟩

end DeAiAgent
